import Mathlib

/-!
# Linear discriminant analysis (`stat/lda.go`)

A shallow embedding of `LD.LinearDiscriminant`, `LD.Transform` and `LD.Predict`.

* Go's `float64` is a type parameter `F` together with a record `FloatOps F` of the
  primitive operations the file uses, each applied in the order the source applies it.
  Theorems stated for an arbitrary `ops : FloatOps F` use no algebraic law beyond the
  three fields of the record, all of which hold for IEEE-754 doubles, and the laws they
  state as premises.
* `XReal` with `exactOps` is one concrete arithmetic: exact rationals extended with
  `NaN`, `+Inf` and `-Inf` (no rounding, no signed zero).
* `XReal` with `float64Ops` is the arithmetic of `float64` itself: the same values, every
  operation followed by rounding to the nearest `float64`, ties to even.
* A `panic` is the value `Failure`; the receiver `ld *LD` is mutated in place, so
  `LinearDiscriminant` returns the receiver after the call together with the outcome.
* Package `mat` is not part of the source file; the few operations used from it are
  modelled separately and marked as such.
-/

namespace Lda

/-! ## Failures -/

/-- Every way a call can stop: the `panic`s of `lda.go`, Go's own run-time checks, and
the failures raised inside package `mat`. -/
inductive Failure
  | sizesDontMatch
  | indexOutOfRange
  | labelNotFromZero
  | negativeClassLabel
  | missingClass
  | onlyOneClass
  | invalidTol
  | sampleSizeTooSmall
  | closeToSingular
  | invalidInputVectorSize
  | nilDereference
  | matShape
  | matZeroLength
  | matIndex
  | matBadFact
  deriving DecidableEq, Repr

deriving instance DecidableEq for Except

/-! ## Arithmetic -/

/-- The `float64` primitives used by `lda.go`.
`zero` is `0.0` (also the content of `make([]float64, _)`), `half` is `0.5`, `tol` is
`1E-4`, `negInf` is `math.Inf(-1)`, `ofInt i` is `float64(i)`, `lt` is `<`, `log` is
`math.Log` and `cabs re im` is `cmplx.Abs(complex(re, im))`. -/
structure FloatOps (F : Type) where
  zero : F
  half : F
  tol : F
  negInf : F
  ofInt : Int → F
  add : F → F → F
  sub : F → F → F
  mul : F → F → F
  div : F → F → F
  lt : F → F → Bool
  log : F → F
  cabs : F → F → F
  lt_irrefl : ∀ a, lt a a = false
  tol_nonneg : lt tol zero = false
  mul_comm : ∀ a b, mul a b = mul b a

/-- Exact rationals extended with the three special values of a `float64`. -/
inductive XReal
  | nan
  | negInf
  | fin (q : ℚ)
  | posInf
  deriving DecidableEq

namespace XReal

/-- Negation. -/
def neg : XReal → XReal
  | nan => nan
  | negInf => posInf
  | fin q => fin (-q)
  | posInf => negInf

/-- Addition; `+Inf + -Inf` is `NaN`. -/
def add : XReal → XReal → XReal
  | nan, _ => nan
  | _, nan => nan
  | posInf, negInf => nan
  | negInf, posInf => nan
  | posInf, _ => posInf
  | _, posInf => posInf
  | negInf, _ => negInf
  | _, negInf => negInf
  | fin a, fin b => fin (a + b)

/-- Subtraction. -/
def sub (a b : XReal) : XReal := add a (neg b)

/-- The positive or the negative infinity. -/
def signedInf (positive : Bool) : XReal := if positive then posInf else negInf

/-- Multiplication; `0 * ±Inf` is `NaN`. -/
def mul : XReal → XReal → XReal
  | nan, _ => nan
  | _, nan => nan
  | fin a, fin b => fin (a * b)
  | fin a, posInf => if a = 0 then nan else signedInf (decide (0 < a))
  | fin a, negInf => if a = 0 then nan else signedInf (decide (a < 0))
  | posInf, fin b => if b = 0 then nan else signedInf (decide (0 < b))
  | negInf, fin b => if b = 0 then nan else signedInf (decide (b < 0))
  | posInf, posInf => posInf
  | negInf, negInf => posInf
  | posInf, negInf => negInf
  | negInf, posInf => negInf

/-- Division; `0 / 0` and `±Inf / ±Inf` are `NaN`, a non-zero finite value divided by zero
is the infinity with the sign of the numerator (zero carries no sign here). -/
def div : XReal → XReal → XReal
  | nan, _ => nan
  | _, nan => nan
  | fin a, fin b =>
    if b = 0 then (if a = 0 then nan else signedInf (decide (0 < a))) else fin (a / b)
  | fin _, posInf => fin 0
  | fin _, negInf => fin 0
  | posInf, fin b => signedInf (decide (0 ≤ b))
  | negInf, fin b => signedInf (decide (b < 0))
  | posInf, posInf => nan
  | negInf, negInf => nan
  | posInf, negInf => nan
  | negInf, posInf => nan

/-- Strict comparison; every comparison with `NaN` is false. -/
def lt : XReal → XReal → Bool
  | nan, _ => false
  | _, nan => false
  | negInf, negInf => false
  | negInf, _ => true
  | _, negInf => false
  | posInf, _ => false
  | fin _, posInf => true
  | fin a, fin b => decide (a < b)

/-- The special cases of `math.Log`; `logQ` gives the value at the remaining arguments. -/
def log (logQ : ℚ → ℚ) : XReal → XReal
  | nan => nan
  | negInf => nan
  | posInf => posInf
  | fin q => if q < 0 then nan else if q = 0 then negInf else if q = 1 then fin 0 else fin (logQ q)

/-- The modulus of `re + im·i`: special cases as `math.Hypot`, exact for a real argument;
`hypotQ` gives the value at the remaining arguments. -/
def cabs (hypotQ : ℚ → ℚ → ℚ) : XReal → XReal → XReal
  | posInf, _ => posInf
  | negInf, _ => posInf
  | _, posInf => posInf
  | _, negInf => posInf
  | nan, _ => nan
  | _, nan => nan
  | fin a, fin b => if b = 0 then fin (if a < 0 then -a else a)
    else if a = 0 then fin (if b < 0 then -b else b) else fin (hypotQ a b)

end XReal

/-- Exact extended-rational arithmetic as an instance of the `float64` primitives. -/
def exactOps (logQ : ℚ → ℚ) (hypotQ : ℚ → ℚ → ℚ) : FloatOps XReal where
  zero := XReal.fin 0
  half := XReal.fin (1 / 2)
  tol := XReal.fin (1 / 10000)
  negInf := XReal.negInf
  ofInt := fun i => XReal.fin i
  add := XReal.add
  sub := XReal.sub
  mul := XReal.mul
  div := XReal.div
  lt := XReal.lt
  log := XReal.log logQ
  cabs := XReal.cabs hypotQ
  lt_irrefl := by intro a; cases a <;> simp [XReal.lt]
  tol_nonneg := by simp [XReal.lt]
  mul_comm := by intro a b; cases a <;> cases b <;> simp [XReal.mul, Rat.mul_comm]

/-- The exact arithmetic used for evaluation: `math.Log` and `cmplx.Abs` are exact at
`0`, at `1` and at real arguments, where the inputs below evaluate them, and are set to
zero elsewhere. -/
def exactArith : FloatOps XReal := exactOps (fun _ => 0) (fun _ _ => 0)

/-! ### `float64` with rounding -/

/-- The number of binary digits of `n` (zero for `n = 0`), for `n < 2 ^ fuel`. -/
def bitLength : Nat → Nat → Nat
  | 0, _ => 0
  | fuel + 1, n => if n = 0 then 0 else bitLength fuel (n / 2) + 1

/-- The power `2 ^ e` for an integer exponent. -/
def pow2 (e : Int) : ℚ :=
  if 0 ≤ e then ((2 ^ e.toNat : Nat) : ℚ) else 1 / ((2 ^ (-e).toNat : Nat) : ℚ)

/-- The binary exponent `⌊log₂ q⌋` of a positive rational whose numerator and denominator
are below `2 ^ 4400`: the difference of the digit counts, or one less. -/
def floorLog2 (q : ℚ) : Int :=
  let e0 : Int := (bitLength 4400 q.num.natAbs : Int) - (bitLength 4400 q.den : Int)
  if pow2 e0 ≤ q then e0 else e0 - 1

/-- The integer nearest to a non-negative rational, a tie going to the even neighbour. -/
def roundHalfEven (m : ℚ) : Nat :=
  let f := m.num.natAbs / m.den
  let r := m.num.natAbs % m.den
  if 2 * r < m.den then f
  else if m.den < 2 * r then f + 1
  else if f % 2 = 0 then f else f + 1

/-- The `float64` nearest to a real number, ties to even (the IEEE-754 default rounding):
the magnitude is `m · 2 ^ t` with `m` an integer of at most 53 binary digits and
`t ≥ -1074` (the spacing of the subnormal range), and an infinity once it reaches
`2 ^ 1024`. Zero carries no sign. -/
def roundQ (q : ℚ) : XReal :=
  if q = 0 then .fin 0 else
  let a := if q < 0 then -q else q
  let t := max (floorLog2 a - 52) (-1074)
  let m := roundHalfEven (a / pow2 t)
  if 1024 < t + (bitLength 64 m : Int) then XReal.signedInf (decide (0 < q))
  else .fin (if q < 0 then -((m : ℚ) * pow2 t) else (m : ℚ) * pow2 t)

/-- Rounding of an exact result; the special values are kept. -/
def roundX : XReal → XReal
  | .fin q => roundQ q
  | v => v

/-- The arithmetic of `float64`: every operation is the exact one of `XReal` followed by
rounding to the nearest `float64`, as IEEE-754 defines `+`, `-`, `*`, `/` and the
conversion of an integer; `tol` is the `float64` nearest to `1E-4`,
`7378697629483821 · 2 ^ -66`. `math.Log` and `cmplx.Abs` are as in `exactOps`. -/
def float64Ops (logQ : ℚ → ℚ) (hypotQ : ℚ → ℚ → ℚ) : FloatOps XReal where
  zero := XReal.fin 0
  half := XReal.fin (1 / 2)
  tol := XReal.fin (7378697629483821 / 73786976294838206464)
  negInf := XReal.negInf
  ofInt := fun i => roundQ i
  add := fun a b => roundX (XReal.add a b)
  sub := fun a b => roundX (XReal.sub a b)
  mul := fun a b => roundX (XReal.mul a b)
  div := fun a b => roundX (XReal.div a b)
  lt := XReal.lt
  log := fun a => roundX (XReal.log logQ a)
  cabs := fun a b => roundX (XReal.cabs hypotQ a b)
  lt_irrefl := by intro a; cases a <;> simp [XReal.lt]
  tol_nonneg := by simp [XReal.lt]; norm_num
  mul_comm := by
    intro a b
    have : XReal.mul a b = XReal.mul b a := by
      cases a <;> cases b <;> simp [XReal.mul, Rat.mul_comm]
    simp only [this]

/-- The `float64` arithmetic used for evaluation: `math.Log` and `cmplx.Abs` are exact at
`0`, at `1` and at real arguments, where the inputs below evaluate them, and are set to
zero elsewhere. -/
def float64Arith : FloatOps XReal := float64Ops (fun _ => 0) (fun _ _ => 0)

/-! ## Matrices (package `mat`) -/

/-- A dense real matrix, also standing for the interface `mat.Matrix`: `Dims()` is
`(rows, cols)` and `At(i, j)` is `At i j`, meaningful for `i < rows` and `j < cols`. -/
structure Matrix (F : Type) where
  rows : Nat
  cols : Nat
  At : Nat → Nat → F

namespace Matrix

variable {F : Type}

/-- `m.Set(i, j, v)`. -/
def Set (m : Matrix F) (i j : Nat) (v : F) : Matrix F :=
  { m with At := fun a b => if a = i ∧ b = j then v else m.At a b }

/-- The rows of a matrix as lists. -/
def toLists (m : Matrix F) : List (List F) :=
  (List.range m.rows).map fun i => (List.range m.cols).map fun j => m.At i j

/-- The matrix with the given rows; entries outside the rows read `dflt`. -/
def ofLists (dflt : F) (r c : Nat) (l : List (List F)) : Matrix F :=
  ⟨r, c, fun i j => (l.getD i []).getD j dflt⟩

end Matrix

variable {F : Type}

/-- `mat.NewDense(r, c, make([]float64, r*c, r*c))`: an `r×c` matrix of zeros (the
backing slice has the matching length, so the call does not fail). -/
def NewDense (ops : FloatOps F) (r c : Nat) : Matrix F := ⟨r, c, fun _ _ => ops.zero⟩

/-- `mat.Col(nil, j, x)`: column `j` of `x` as a slice. -/
def Col (x : Matrix F) (j : Nat) : List F := (List.range x.rows).map fun i => x.At i j

/-- The product `a·b`: entry `(i, j)` accumulates `a[i,l] * b[l,j]` over `l` from zero. -/
def matMul (ops : FloatOps F) (a b : Matrix F) : Matrix F :=
  ⟨a.rows, b.cols, fun i j =>
    (List.range a.cols).foldl (fun s l => ops.add s (ops.mul (a.At i l) (b.At l j))) ops.zero⟩

/-- Modelled from the spec: `(*mat.Dense).Mul` of package `mat`, which is outside the source
file ("matrix multiplication" of the external linear-algebra collaborator). `recv.Mul(a, b)`
stores `a·b` in the receiver: the inner dimensions must agree, and a receiver that is not
zero-sized must already have the dimensions of the product. -/
def Mul (ops : FloatOps F) (recv a b : Matrix F) : Except Failure (Matrix F) :=
  if a.cols ≠ b.rows then .error .matShape
  else if a.rows = 0 ∨ b.cols = 0 then .error .matZeroLength
  else if recv.rows = 0 ∨ recv.cols = 0 then .ok (matMul ops a b)
  else if recv.rows ≠ a.rows ∨ recv.cols ≠ b.cols then .error .matShape
  else .ok (matMul ops a b)

/-- Modelled from the spec: what a successful `(*mat.Eigen).Factorize(C, false, true)`
stores, the complex eigenvalues `(re, im)` and the matrix of right eigenvectors. -/
structure EigenResult (F : Type) where
  values : List (F × F)
  vectors : Matrix F

/-- Modelled from the spec: the symmetric eigen-solver behind `Factorize`, an external
collaborator; `none` is a factorization that reports it did not succeed. -/
abbrev EigenSolver (F : Type) := Matrix F → Option (EigenResult F)

/-! ## The model state -/

/-- The struct `LD`. `eigen` is `none` while it holds no successful factorization (also
its zero value); `mu` is `none` for the nil pointer. The field `svd` is never read or
written by any method and is left out. -/
structure LD (F : Type) where
  n : Nat
  p : Nat
  k : Nat
  ct : List F
  mu : Option (Matrix F)
  ok : Bool
  eigen : Option (EigenResult F)

/-- The zero value of `LD`: a model on which nothing was called. -/
def LD.zero : LD F := ⟨0, 0, 0, [], none, false, none⟩

/-! ## `LinearDiscriminant` -/

/-- Lines 44–59: the distinct labels of `y` in order of first occurrence. -/
def uniqueLabels (y : List Int) : List Int :=
  y.foldl (fun labels v => if v ∈ labels then labels else labels ++ [v]) []

/-- `sort.Ints`. -/
def sortInts (l : List Int) : List Int := l.insertionSort (· ≤ ·)

/-- Lines 68–75 from index 1 on: `prev` is `labels[i-1]`. -/
def checkLabelsFrom (prev : Int) : List Int → Option Failure
  | [] => none
  | l :: rest =>
    if l < 0 then some .negativeClassLabel
    else if l - prev > 1 then some .missingClass
    else checkLabelsFrom l rest

/-- Lines 68–75: the loop over the sorted labels. -/
def checkLabels : List Int → Option Failure
  | [] => none
  | l :: rest => if l < 0 then some .negativeClassLabel else checkLabelsFrom l rest

/-- Lines 96–104: the mean of every column of `x`. -/
def colmean (ops : FloatOps F) (n p : Nat) (x : Matrix F) : List F :=
  (List.range p).map fun i => ops.div ((Col x i).foldl ops.add ops.zero) (ops.ofInt n)

/-- Lines 115–118, one row `i` with label `yi`: count it and add the row to its class sum.
`none` is Go's index check on `ni[y[i]]`. -/
def sumRow (ops : FloatOps F) (x : Matrix F) (p : Nat) (acc : List Nat × Matrix F)
    (i : Nat) (yi : Int) : Option (List Nat × Matrix F) :=
  if 0 ≤ yi ∧ yi.toNat < acc.1.length then
    some (acc.1.set yi.toNat (acc.1.getD yi.toNat 0 + 1),
      (List.range p).foldl
        (fun mu j => mu.Set yi.toNat j (ops.add (mu.At yi.toNat j) (x.At i j))) acc.2)
  else none

/-- Lines 114–119: the loop over the rows; on a failed index check the matrix built so far
is what `ld.mu` points to. -/
def sumRows (ops : FloatOps F) (x : Matrix F) (p : Nat) (y : List Int) :
    List Nat → List Nat × Matrix F → (List Nat × Matrix F) × Option Failure
  | [], acc => (acc, none)
  | i :: is, acc =>
    match y[i]? with
    | none => (acc, some .indexOutOfRange)
    | some yi =>
      match sumRow ops x p acc i yi with
      | none => (acc, some .indexOutOfRange)
      | some acc1 => sumRows ops x p y is acc1

/-- Lines 120–124: divide every class sum by the class count. -/
def divideByCounts (ops : FloatOps F) (k p : Nat) (ni : List Nat) (mu : Matrix F) : Matrix F :=
  (List.range k).foldl (fun mu i =>
    (List.range p).foldl (fun mu j =>
      mu.Set i j (ops.div (mu.At i j) (ops.ofInt (ni.getD i 0)))) mu) mu

/-- Lines 127–130: `priori[i] = (float64)(ni[i] / ld.n)`, the quotient taken on `int`s. -/
def priori (ops : FloatOps F) (n : Nat) (ni : List Nat) : List F :=
  ni.map fun c => ops.ofInt ((c / n : Nat) : Int)

/-- Lines 133–136: `ld.ct[i] = math.Log(priori[i])`. -/
def constantTerms (ops : FloatOps F) (pr : List F) : List F := pr.map ops.log

/-- Lines 138–144: accumulate the products of centred deviations into the lower triangle. -/
def covAccum (ops : FloatOps F) (x : Matrix F) (n p : Nat) (cm : List F) (C : Matrix F) :
    Matrix F :=
  (List.range n).foldl (fun C i =>
    (List.range p).foldl (fun C j =>
      (List.range (j + 1)).foldl (fun C l =>
        C.Set j l (ops.add (C.At j l)
          (ops.mul (ops.sub (x.At i j) (cm.getD j ops.zero))
            (ops.sub (x.At i l) (cm.getD l ops.zero))))) C) C) C

/-- Lines 149–152 for one `j`: scale row `j` of the lower triangle and mirror it. -/
def covScaleRow (ops : FloatOps F) (d : F) (C : Matrix F) (j : Nat) : Matrix F :=
  (List.range (j + 1)).foldl (fun C l =>
    let C1 := C.Set j l (ops.div (C.At j l) d)
    C1.Set l j (C1.At j l)) C

/-- Lines 148–156: scale, mirror and test the diagonal, feature by feature; `none` is the
panic on a diagonal entry below `tol2`. -/
def covScale (ops : FloatOps F) (d tol2 : F) : List Nat → Matrix F → Option (Matrix F)
  | [], C => some C
  | j :: js, C =>
    let C1 := covScaleRow ops d C j
    if ops.lt (C1.At j j) tol2 then none else covScale ops d tol2 js C1

/-- The matrix `C` when the loop of lines 138–144 ends, before it is scaled: the
accumulated products of deviations from the column means, in the lower triangle. -/
def scatter (ops : FloatOps F) (x : Matrix F) : Matrix F :=
  covAccum ops x x.rows x.cols (colmean ops x.rows x.cols x) (NewDense ops x.cols x.cols)

/-- Lines 92–165 of `LinearDiscriminant`, entered once the label, class-count and
sample-size checks have passed: the estimation of the moments, the singularity check and
the factorization, whose reported success is dropped. `ld` already holds `n`, `p`, `k`. -/
def estimate (ops : FloatOps F) (solver : EigenSolver F) (ld : LD F) (x : Matrix F)
    (ys : List Int) : LD F × Except Failure Bool :=
  let cm := colmean ops ld.n ld.p x
  let C := NewDense ops ld.p ld.p
  match sumRows ops x ld.p ys (List.range ld.n)
      (List.replicate ld.k 0, NewDense ops ld.k ld.p) with
  | (acc, some e) => ({ ld with mu := some acc.2 }, .error e)
  | (acc, none) =>
    let ni := acc.1
    let mu := divideByCounts ops ld.k ld.p ni acc.2
    let ld3 := { ld with mu := some mu, ct := constantTerms ops (priori ops ld.n ni) }
    let C1 := covAccum ops x ld3.n ld3.p cm C
    let tol2 := ops.mul ops.tol ops.tol
    match covScale ops (ops.ofInt ((ld3.n : Int) - ld3.k)) tol2 (List.range ld3.p) C1 with
    | none => (ld3, .error .closeToSingular)
    | some C2 => ({ ld3 with eigen := solver C2 }, .ok true)

/-- The method `LinearDiscriminant` (lines 36–165): the receiver after the call and either
the returned `ok` or the panic. `y = none` is a nil slice. Lines 92–165 are `estimate`. -/
def LinearDiscriminant (ops : FloatOps F) (solver : EigenSolver F) (ld : LD F)
    (x : Matrix F) (y : Option (List Int)) : LD F × Except Failure Bool :=
  let ld1 := { ld with n := x.rows, p := x.cols }
  if y.isSome ∧ (y.getD []).length ≠ ld1.n then (ld1, .error .sizesDontMatch) else
  let ys := y.getD []
  let labels := sortInts (uniqueLabels ys)
  match labels with
  | [] => (ld1, .error .indexOutOfRange)
  | l0 :: _ =>
    if l0 ≠ 0 then (ld1, .error .labelNotFromZero) else
    match checkLabels labels with
    | some e => (ld1, .error e)
    | none =>
      let ld2 := { ld1 with k := labels.length }
      if ld2.k < 2 then (ld2, .error .onlyOneClass) else
      if ops.lt ops.tol ops.zero then (ld2, .error .invalidTol) else
      if ld2.n ≤ ld2.k then (ld2, .error .sampleSizeTooSmall) else
      estimate ops solver ld2 x ys

/-! ## `LinearDiscriminant` when `Factorize` may not return -/

/-- Modelled from the spec: the call `(*mat.Eigen).Factorize(C, false, true)` of package
`mat`, outside the source file, as in `EigenSolver`, which in addition may fail to return
(the source file shows no bound on the iteration of the solver). `none` is a call that
never returns; `some r` is a call that returns and leaves `r` in the decomposition. -/
abbrev EigenRun (F : Type) := Matrix F → Option (Option (EigenResult F))

/-- Lines 92–165 as in `estimate`, with a factorization that may not return; `none` is a
call that never returns. -/
def estimateRun (ops : FloatOps F) (run : EigenRun F) (ld : LD F) (x : Matrix F)
    (ys : List Int) : Option (LD F × Except Failure Bool) :=
  let cm := colmean ops ld.n ld.p x
  let C := NewDense ops ld.p ld.p
  match sumRows ops x ld.p ys (List.range ld.n)
      (List.replicate ld.k 0, NewDense ops ld.k ld.p) with
  | (acc, some e) => some ({ ld with mu := some acc.2 }, .error e)
  | (acc, none) =>
    let ni := acc.1
    let mu := divideByCounts ops ld.k ld.p ni acc.2
    let ld3 := { ld with mu := some mu, ct := constantTerms ops (priori ops ld.n ni) }
    let C1 := covAccum ops x ld3.n ld3.p cm C
    let tol2 := ops.mul ops.tol ops.tol
    match covScale ops (ops.ofInt ((ld3.n : Int) - ld3.k)) tol2 (List.range ld3.p) C1 with
    | none => some (ld3, .error .closeToSingular)
    | some C2 =>
      match run C2 with
      | none => none
      | some r => some ({ ld3 with eigen := r }, .ok true)

/-- The method `LinearDiscriminant` (lines 36–165) as in `LinearDiscriminant`, with a
factorization that may not return; `none` is a call that never returns. -/
def LinearDiscriminantRun (ops : FloatOps F) (run : EigenRun F) (ld : LD F)
    (x : Matrix F) (y : Option (List Int)) : Option (LD F × Except Failure Bool) :=
  let ld1 := { ld with n := x.rows, p := x.cols }
  if y.isSome ∧ (y.getD []).length ≠ ld1.n then some (ld1, .error .sizesDontMatch) else
  let ys := y.getD []
  let labels := sortInts (uniqueLabels ys)
  match labels with
  | [] => some (ld1, .error .indexOutOfRange)
  | l0 :: _ =>
    if l0 ≠ 0 then some (ld1, .error .labelNotFromZero) else
    match checkLabels labels with
    | some e => some (ld1, .error e)
    | none =>
      let ld2 := { ld1 with k := labels.length }
      if ld2.k < 2 then some (ld2, .error .onlyOneClass) else
      if ops.lt ops.tol ops.zero then some (ld2, .error .invalidTol) else
      if ld2.n ≤ ld2.k then some (ld2, .error .sampleSizeTooSmall) else
      estimateRun ops run ld2 x ys

/-! ## Models that were never fitted -/

/-- A model on which `LinearDiscriminant` was never called (the zero value), or on which
every call so far failed. -/
inductive NeverFitted (ops : FloatOps F) (solver : EigenSolver F) : LD F → Prop
  | fresh : NeverFitted ops solver LD.zero
  | failed (ld : LD F) (x : Matrix F) (y : Option (List Int)) (e : Failure) :
      NeverFitted ops solver ld → (LinearDiscriminant ops solver ld x y).2 = .error e →
      NeverFitted ops solver (LinearDiscriminant ops solver ld x y).1

/-! ## `Transform` and `Predict` -/

/-- Modelled from the spec: `(*mat.Eigen).Vectors` of package `mat`, outside the source
file; as the comment on lines 160–161 says, it panics when the decomposition holds no
successful factorization. -/
def eigenVectors (ld : LD F) : Except Failure (Matrix F) :=
  match ld.eigen with
  | none => .error .matBadFact
  | some e => .ok e.vectors

/-- The method `Transform` (lines 174–179): the result is allocated with `ld.n` rows and
then receives the product. -/
def Transform (ops : FloatOps F) (ld : LD F) (x : Matrix F) : Except Failure (Matrix F) :=
  match eigenVectors ld with
  | .error e => .error e
  | .ok V =>
    let p := V.cols
    let result := NewDense ops ld.n p
    Mul ops result x V

/-- Lines 190–192 for class `i`: `d[j] = x[j] - ld.mu.At(i, j)` for every `j < p`. -/
def deviation (ops : FloatOps F) (ld : LD F) (x : List F) (i : Nat) :
    Except Failure (List F) :=
  if ld.p = 0 then .ok [] else
  match ld.mu with
  | none => .error .nilDereference
  | some mu =>
    if i < mu.rows ∧ ld.p ≤ mu.cols then
      .ok ((List.range ld.p).map fun j => ops.sub (x.getD j ops.zero) (mu.At i j))
    else .error .matIndex

/-- Modelled from the spec: `(*mat.Eigen).Values` of package `mat`, called on lines 194–195
with a destination of length `p`; it panics when the decomposition holds no successful
factorization and when the destination has another length than the eigenvalues. -/
def eigenValues (ld : LD F) : Except Failure (List (F × F)) :=
  match ld.eigen with
  | none => .error .matBadFact
  | some e => if e.values.length ≠ ld.p then .error .matShape else .ok e.values

/-- Lines 196–198: the quadratic term `f`; it reads `ux`, which is `make([]float64, ld.p)`
and is never assigned. -/
def quadTerm (ops : FloatOps F) (p : Nat) (ux : List F) (evals : List (F × F)) : F :=
  (List.range p).foldl (fun f j =>
    ops.add f (ops.div (ops.mul (ux.getD j ops.zero) (ux.getD j ops.zero))
      (ops.cabs (evals.getD j (ops.zero, ops.zero)).1 (evals.getD j (ops.zero, ops.zero)).2)))
    ops.zero

/-- Lines 189–204: the loop over the classes; the state is `(y, max)`. -/
def predictLoop (ops : FloatOps F) (ld : LD F) (x : List F) :
    List Nat → Nat × F → Except Failure (Nat × F)
  | [], st => .ok st
  | i :: is, st =>
    match deviation ops ld x i with
    | .error e => .error e
    | .ok _ =>
      match eigenValues ld with
      | .error e => .error e
      | .ok evals =>
        let ux := List.replicate ld.p ops.zero
        let f0 := quadTerm ops ld.p ux evals
        match ld.ct[i]? with
        | none => .error .indexOutOfRange
        | some c =>
          let f := ops.sub c (ops.mul ops.half f0)
          if ops.lt st.2 f then predictLoop ops ld x is (i, f)
          else predictLoop ops ld x is st

/-- The method `Predict` (lines 181–207). -/
def Predict (ops : FloatOps F) (ld : LD F) (x : List F) : Except Failure Nat :=
  if x.length ≠ ld.p then .error .invalidInputVectorSize
  else (predictLoop ops ld x (List.range ld.k) (0, ops.negInf)).map Prod.fst

/-! ## The score in the words of the specification -/

/-- The rows labelled `i`, in increasing order. -/
def rowsOf (y : List Int) (n i : Nat) : List Nat :=
  (List.range n).filter fun r => y[r]? = some (i : Int)

/-- The mean of feature `j` over class `i` as the specification words it (section 4.2,
step 2): the sum over the rows labelled `i`, divided by their number `n_i`. -/
def specClassMean (ops : FloatOps F) (x : Matrix F) (y : List Int) (i j : Nat) : F :=
  ops.div ((rowsOf y x.rows i).foldl (fun s r => ops.add s (x.At r j)) ops.zero)
    (ops.ofInt ((rowsOf y x.rows i).length : Nat))

/-- The global mean of column `j` as the specification words it (section 4.2, step 1):
the arithmetic mean over all `n` rows. -/
def specGlobalMean (ops : FloatOps F) (x : Matrix F) (j : Nat) : F :=
  ops.div ((List.range x.rows).foldl (fun s i => ops.add s (x.At i j)) ops.zero)
    (ops.ofInt x.rows)

/-- The entry `(j, l)` of the pooled covariance as the specification words it (section 4.2,
step 5): the products of the deviations from the global means, summed over all rows and
divided by `n − k`. -/
def specCov (ops : FloatOps F) (x : Matrix F) (k j l : Nat) : F :=
  ops.div
    ((List.range x.rows).foldl
      (fun s i => ops.add s (ops.mul (ops.sub (x.At i j) (specGlobalMean ops x j))
        (ops.sub (x.At i l) (specGlobalMean ops x l)))) ops.zero)
    (ops.ofInt ((x.rows : Int) - k))

/-! ## Intermediate values of `LinearDiscriminant` and `Predict` -/

/-- The slice `ni` when the loop of lines 114–119 ends, for `k` classes. -/
def classCounts (ops : FloatOps F) (x : Matrix F) (y : List Int) (k : Nat) : List Nat :=
  (sumRows ops x x.cols y (List.range x.rows) (List.replicate k 0, NewDense ops k x.cols)).1.1

/-- The matrix `ld.mu` when the loop of lines 114–119 ends, for `k` classes: the sums of
the rows of every class. -/
def classSums (ops : FloatOps F) (x : Matrix F) (y : List Int) (k : Nat) : Matrix F :=
  (sumRows ops x x.cols y (List.range x.rows) (List.replicate k 0, NewDense ops k x.cols)).1.2

/-- The matrix `C` when the loop of lines 148–156 ends, which line 162 hands to
`Factorize`; `none` when the loop panics. -/
def pooledCov (ops : FloatOps F) (x : Matrix F) (k : Nat) : Option (Matrix F) :=
  covScale ops (ops.ofInt ((x.rows : Int) - k)) (ops.mul ops.tol ops.tol)
    (List.range x.cols) (scatter ops x)

/-- The value `f` of line 199 for class `i`, given the eigenvalues read on line 195. -/
def classScore (ops : FloatOps F) (ld : LD F) (evals : List (F × F)) (i : Nat) : F :=
  ops.sub (ld.ct.getD i ops.zero)
    (ops.mul ops.half (quadTerm ops ld.p (List.replicate ld.p ops.zero) evals))

/-! ## Concrete inputs -/

/-- An eigen-solver that reports that the factorization did not succeed. -/
def failingSolver : EigenSolver F := fun _ => none

/-- Three observations of one feature: `1, 3, 5`. -/
def trainX : Matrix XReal := Matrix.ofLists (XReal.fin 0) 3 1 [[.fin 1], [.fin 3], [.fin 5]]

/-- The labels of `trainX`: two rows of class 0, one row of class 1. -/
def trainY : List Int := [0, 0, 1]

/-- Three observations of two features; the second feature is the constant `7`. -/
def constX : Matrix XReal :=
  Matrix.ofLists (XReal.fin 0) 3 2 [[.fin 1, .fin 7], [.fin 3, .fin 7], [.fin 5, .fin 7]]

/-- The eigen-decomposition of a 1×1 matrix: its entry is the eigenvalue and `(1)` the
eigenvector. Other sizes are reported as not factorized. -/
def solver1x1 (ops : FloatOps F) : EigenSolver F := fun C =>
  if C.rows = 1 ∧ C.cols = 1 then
    some ⟨[(C.At 0 0, ops.zero)], ⟨1, 1, fun _ _ => ops.ofInt 1⟩⟩
  else none

/-- Four observations of one feature: `1, 3, 5, 7`. -/
def balancedX : Matrix XReal :=
  Matrix.ofLists (XReal.fin 0) 4 1 [[.fin 1], [.fin 3], [.fin 5], [.fin 7]]

/-- The labels of `balancedX`: two rows of class 0, then two rows of class 1. -/
def balancedY : List Int := [0, 0, 1, 1]

/-- The model of `balancedX`, `balancedY` with both constant terms equal to `c`, the
logarithm of the common prior `1/2`: class means 2 and 6, variance 10. -/
def balancedModel (c : ℚ) : LD XReal where
  n := 4
  p := 1
  k := 2
  ct := [.fin c, .fin c]
  mu := some (Matrix.ofLists (XReal.fin 0) 2 1 [[.fin 2], [.fin 6]])
  ok := false
  eigen := some ⟨[(.fin 10, .fin 0)], ⟨1, 1, fun _ _ => .fin 1⟩⟩


/-- A model of three classes and one feature with the constant terms `0, 1, 1`, the class
means `2, 6, 9` and the eigenvalue `10`. -/
def threeClassModel : LD XReal where
  n := 6
  p := 1
  k := 3
  ct := [.fin 0, .fin 1, .fin 1]
  mu := some (Matrix.ofLists (XReal.fin 0) 3 1 [[.fin 2], [.fin 6], [.fin 9]])
  ok := false
  eigen := some ⟨[(.fin 10, .fin 0)], ⟨1, 1, fun _ _ => .fin 1⟩⟩

/-- The model `threeClassModel` with the first constant term replaced by `NaN`. -/
def nanModel : LD XReal := { threeClassModel with ct := [.nan, .fin 1, .fin 1] }

/-- Three observations of one feature, the constant `1000000000000000.25`, which is a
`float64`: `4000000000000001 / 4` with `4000000000000001 < 2 ^ 53`. -/
def bigConstX : Matrix XReal :=
  Matrix.ofLists (XReal.fin 0) 3 1
    [[.fin (4000000000000001 / 4)], [.fin (4000000000000001 / 4)],
      [.fin (4000000000000001 / 4)]]

/-- Three observations of one feature: `NaN, 3, 5`. -/
def nanX : Matrix XReal := Matrix.ofLists (XReal.fin 0) 3 1 [[.nan], [.fin 3], [.fin 5]]

/-- Four observations of two features. -/
def twoFeatureX : Matrix XReal :=
  Matrix.ofLists (XReal.fin 0) 4 2
    [[.fin 1, .fin 2], [.fin 3, .fin 1], [.fin 5, .fin 4], [.fin 7, .fin 9]]

/-- The receiver after `LinearDiscriminant` on `balancedX`, `balancedY`, called on a fresh
model with the exact 1×1 eigen-solver. -/
def balancedFit : LD XReal :=
  (LinearDiscriminant exactArith (solver1x1 exactArith) LD.zero balancedX (some balancedY)).1

end Lda

namespace Lda

/-! ## Labels: the distinct labels and their sorted list -/

theorem uniqueLabels_foldl_mem (y acc : List Int) (v : Int) :
    v ∈ y.foldl (fun labels v => if v ∈ labels then labels else labels ++ [v]) acc ↔
      v ∈ acc ∨ v ∈ y := by
  induction y generalizing acc with
  | nil => simp
  | cons a t ih =>
    rw [List.foldl_cons, ih]
    by_cases h : a ∈ acc
    · simp only [h, if_true, List.mem_cons]
      constructor
      · rintro (h1 | h1)
        · exact Or.inl h1
        · exact Or.inr (Or.inr h1)
      · rintro (h1 | h1 | h1)
        · exact Or.inl h1
        · exact Or.inl (h1 ▸ h)
        · exact Or.inr h1
    · simp only [h, if_false, List.mem_append, List.mem_singleton, List.mem_cons]
      tauto

theorem mem_uniqueLabels (y : List Int) (v : Int) : v ∈ uniqueLabels y ↔ v ∈ y := by
  simp [uniqueLabels, uniqueLabels_foldl_mem]

theorem uniqueLabels_foldl_nodup (y acc : List Int) (h : acc.Nodup) :
    (y.foldl (fun labels v => if v ∈ labels then labels else labels ++ [v]) acc).Nodup := by
  induction y generalizing acc with
  | nil => simpa using h
  | cons a t ih =>
    rw [List.foldl_cons]
    apply ih
    by_cases ha : a ∈ acc
    · simpa [ha] using h
    · simp only [ha, if_false]
      rw [List.nodup_append]
      refine ⟨h, List.nodup_singleton a, ?_⟩
      intro b hb hb2
      rw [List.mem_singleton] at hb2
      exact ha (hb2 ▸ hb)

theorem nodup_uniqueLabels (y : List Int) : (uniqueLabels y).Nodup :=
  uniqueLabels_foldl_nodup y [] List.nodup_nil

theorem mem_sortedLabels (y : List Int) (v : Int) : v ∈ sortInts (uniqueLabels y) ↔ v ∈ y := by
  rw [sortInts, (List.perm_insertionSort (· ≤ ·) (uniqueLabels y)).mem_iff, mem_uniqueLabels]

theorem sortedLabels_sorted (y : List Int) : (sortInts (uniqueLabels y)).Sorted (· < ·) := by
  have h1 : (sortInts (uniqueLabels y)).Sorted (· ≤ ·) := List.sorted_insertionSort (· ≤ ·) _
  have h2 : (sortInts (uniqueLabels y)).Nodup :=
    (List.perm_insertionSort (· ≤ ·) (uniqueLabels y)).nodup_iff.mpr (nodup_uniqueLabels y)
  exact h1.lt_of_le h2

theorem sortedLabels_eq_nil (y : List Int) : sortInts (uniqueLabels y) = [] ↔ y = [] := by
  constructor
  · intro h
    cases y with
    | nil => rfl
    | cons a t =>
      have : a ∈ sortInts (uniqueLabels (a :: t)) := (mem_sortedLabels _ _).mpr (List.mem_cons_self a t)
      rw [h] at this
      simp at this
  · intro h
    subst h
    rfl

/-- The first sorted label is the least label of `y`. -/
theorem sortedLabels_head (y : List Int) (l0 : Int) (rest : List Int)
    (h : sortInts (uniqueLabels y) = l0 :: rest) : l0 ∈ y ∧ ∀ v ∈ y, l0 ≤ v := by
  have hs := sortedLabels_sorted y
  rw [h] at hs
  refine ⟨(mem_sortedLabels y l0).mp (h ▸ List.mem_cons_self l0 rest), ?_⟩
  intro v hv
  have hv2 : v ∈ l0 :: rest := h ▸ (mem_sortedLabels y v).mpr hv
  rcases List.mem_cons.mp hv2 with h1 | h1
  · exact le_of_eq h1.symm
  · exact le_of_lt (List.rel_of_sorted_cons hs v h1)

/-! ## Labels: the range check of lines 68–75 -/

theorem checkLabelsFrom_eq_none (prev : Int) (l : List Int) :
    checkLabelsFrom prev l = none ↔ List.Chain (fun a b => 0 ≤ b ∧ b - a ≤ 1) prev l := by
  induction l generalizing prev with
  | nil => simp [checkLabelsFrom]
  | cons a t ih =>
    rw [checkLabelsFrom, List.chain_cons]
    by_cases h1 : a < 0
    · simp only [h1, if_true]
      constructor
      · intro h; cases h
      · rintro ⟨⟨h2, _⟩, _⟩; omega
    · by_cases h2 : a - prev > 1
      · simp only [h1, h2, if_true, if_false]
        constructor
        · intro h; cases h
        · rintro ⟨⟨_, h3⟩, _⟩; omega
      · simp only [h1, h2, if_false, ih]
        constructor
        · intro h; exact ⟨⟨by omega, by omega⟩, h⟩
        · rintro ⟨_, h⟩; exact h

theorem checkLabelsFrom_nonneg (prev : Int) (l : List Int) (h : ∀ v ∈ l, 0 ≤ v) :
    checkLabelsFrom prev l = none ∨ checkLabelsFrom prev l = some .missingClass := by
  induction l generalizing prev with
  | nil => left; rfl
  | cons a t ih =>
    rw [checkLabelsFrom]
    have ha : ¬ a < 0 := not_lt.mpr (h a (List.mem_cons_self a t))
    simp only [ha, if_false]
    by_cases h2 : a - prev > 1
    · simp [h2]
    · simp only [h2, if_false]
      exact ih a (fun v hv => h v (List.mem_cons_of_mem a hv))

theorem checkLabels_nonneg (l : List Int) (h : ∀ v ∈ l, 0 ≤ v) :
    checkLabels l = none ∨ checkLabels l = some .missingClass := by
  cases l with
  | nil => left; rfl
  | cons a t =>
    rw [checkLabels]
    have ha : ¬ a < 0 := not_lt.mpr (h a (List.mem_cons_self a t))
    simp only [ha, if_false]
    exact checkLabelsFrom_nonneg a t (fun v hv => h v (List.mem_cons_of_mem a hv))

theorem checkLabels_eq_none (l : List Int) (h : ∀ v ∈ l, 0 ≤ v) :
    checkLabels l = none ↔ List.Chain' (fun a b => b - a ≤ 1) l := by
  cases l with
  | nil => simp [checkLabels]
  | cons a t =>
    rw [checkLabels, List.Chain']
    have ha : ¬ a < 0 := not_lt.mpr (h a (List.mem_cons_self a t))
    simp only [ha, if_false, checkLabelsFrom_eq_none]
    have ht : ∀ v ∈ t, 0 ≤ v := fun v hv => h v (List.mem_cons_of_mem a hv)
    clear h ha
    induction t generalizing a with
    | nil => simp
    | cons b u ih =>
      simp only [List.chain_cons]
      have hb := ht b (List.mem_cons_self b u)
      have hu : ∀ v ∈ u, 0 ≤ v := fun v hv => ht v (List.mem_cons_of_mem b hv)
      have ih2 := ih b hu
      constructor
      · rintro ⟨⟨_, h1⟩, h2⟩; exact ⟨h1, ih2.mp h2⟩
      · rintro ⟨h1, h2⟩; exact ⟨⟨hb, h1⟩, ih2.mpr h2⟩

/-- In a strictly increasing list without a step above one, the successor of every
element below another element is an element. -/
theorem succ_mem_of_chain (l : List Int) (hs : l.Sorted (· < ·))
    (hc : List.Chain' (fun a b => b - a ≤ 1) l) :
    ∀ a ∈ l, ∀ b ∈ l, a < b → a + 1 ∈ l := by
  induction l with
  | nil => intro a ha; simp at ha
  | cons h t ih =>
    intro a ha b hb hab
    have hst : t.Sorted (· < ·) := hs.of_cons
    have hct : List.Chain' (fun a b => b - a ≤ 1) t := hc.tail
    rcases List.mem_cons.mp ha with ha1 | ha1
    · subst ha1
      rcases List.mem_cons.mp hb with hb1 | hb1
      · omega
      · cases t with
        | nil => simp at hb1
        | cons h2 t2 =>
          have h3 : h2 - a ≤ 1 := (List.chain'_cons.mp hc).1
          have h4 : a < h2 := List.rel_of_sorted_cons hs h2 (List.mem_cons_self h2 t2)
          have : a + 1 = h2 := by omega
          rw [this]
          exact List.mem_cons_of_mem _ (List.mem_cons_self h2 t2)
    · rcases List.mem_cons.mp hb with hb1 | hb1
      · subst hb1
        have := List.rel_of_sorted_cons hs a ha1
        omega
      · exact List.mem_cons_of_mem _ (ih hst hct a ha1 b hb1 hab)

/-- A step above one between neighbours of a strictly increasing list is a gap of its
set of elements. -/
theorem gap_of_not_chain (l : List Int) (hs : l.Sorted (· < ·))
    (hc : ¬ List.Chain' (fun a b => b - a ≤ 1) l) :
    ∃ a ∈ l, ∃ b ∈ l, a + 1 < b ∧ ∀ c ∈ l, ¬ (a < c ∧ c < b) := by
  induction l with
  | nil => exact absurd List.chain'_nil hc
  | cons h t ih =>
    cases t with
    | nil => exact absurd (List.chain'_singleton h) hc
    | cons h2 t2 =>
      by_cases h3 : h2 - h ≤ 1
      · have hc2 : ¬ List.Chain' (fun a b => b - a ≤ 1) (h2 :: t2) := by
          intro hh
          exact hc (List.chain'_cons.mpr ⟨h3, hh⟩)
        obtain ⟨a, ha, b, hb, hab, hno⟩ := ih hs.of_cons hc2
        refine ⟨a, List.mem_cons_of_mem _ ha, b, List.mem_cons_of_mem _ hb, hab, ?_⟩
        intro c hc3
        rcases List.mem_cons.mp hc3 with h4 | h4
        · subst h4
          have := List.rel_of_sorted_cons hs a ha
          omega
        · exact hno c h4
      · refine ⟨h, List.mem_cons_self _ _, h2, List.mem_cons_of_mem _ (List.mem_cons_self _ _),
          by omega, ?_⟩
        intro c hc3
        rcases List.mem_cons.mp hc3 with h4 | h4
        · omega
        · rcases List.mem_cons.mp h4 with h5 | h5
          · omega
          · have := List.rel_of_sorted_cons hs.of_cons c h5
            omega

/-- The outcome of the range check on the sorted labels of `y` when the least label is 0. -/
theorem checkLabels_sortedLabels (y : List Int) (hnn : ∀ v ∈ y, 0 ≤ v) :
    checkLabels (sortInts (uniqueLabels y)) = some .missingClass ↔
      ∃ a ∈ y, ∃ b ∈ y, a + 1 < b ∧ ∀ c ∈ y, ¬ (a < c ∧ c < b) := by
  have hs := sortedLabels_sorted y
  have hnn2 : ∀ v ∈ sortInts (uniqueLabels y), 0 ≤ v :=
    fun v hv => hnn v ((mem_sortedLabels y v).mp hv)
  constructor
  · intro h
    have hc : ¬ List.Chain' (fun a b => b - a ≤ 1) (sortInts (uniqueLabels y)) := by
      intro hh
      rw [(checkLabels_eq_none _ hnn2).mpr hh] at h
      cases h
    obtain ⟨a, ha, b, hb, hab, hno⟩ := gap_of_not_chain _ hs hc
    exact ⟨a, (mem_sortedLabels y a).mp ha, b, (mem_sortedLabels y b).mp hb, hab,
      fun c hc3 => hno c ((mem_sortedLabels y c).mpr hc3)⟩
  · rintro ⟨a, ha, b, hb, hab, hno⟩
    rcases checkLabels_nonneg _ hnn2 with h | h
    · exfalso
      have hc := (checkLabels_eq_none _ hnn2).mp h
      have := succ_mem_of_chain _ hs hc a ((mem_sortedLabels y a).mpr ha) b
        ((mem_sortedLabels y b).mpr hb) (by omega)
      exact hno (a + 1) ((mem_sortedLabels y _).mp this) ⟨by omega, by omega⟩
    · exact h

/-! ## `LinearDiscriminant`: the label checks -/

theorem sumRows_failure (ops : FloatOps F) (x : Matrix F) (p : Nat) (y : List Int)
    (rows : List Nat) (acc : List Nat × Matrix F) (e : Failure)
    (h : (sumRows ops x p y rows acc).2 = some e) : e = .indexOutOfRange := by
  induction rows generalizing acc with
  | nil => simp [sumRows] at h
  | cons i is ih =>
    rw [sumRows] at h
    split at h
    · simpa using h.symm
    · split at h
      · simpa using h.symm
      · exact ih _ h

theorem estimate_failure (ops : FloatOps F) (solver : EigenSolver F) (ld : LD F)
    (x : Matrix F) (ys : List Int) (e : Failure)
    (h : (estimate ops solver ld x ys).2 = .error e) :
    e = .indexOutOfRange ∨ e = .closeToSingular := by
  unfold estimate at h
  split at h
  · rename_i acc e1 he
    have := sumRows_failure ops x _ ys _ _ e1 (by rw [he])
    subst this
    left
    simpa using h.symm
  · dsimp only at h
    split at h
    · right
      simpa using h.symm
    · cases h

theorem estimate_ne_missingClass (ops : FloatOps F) (solver : EigenSolver F) (ld : LD F)
    (x : Matrix F) (ys : List Int) :
    (estimate ops solver ld x ys).2 ≠ .error .missingClass := by
  intro h
  rcases estimate_failure ops solver ld x ys _ h with h1 | h1 <;> cases h1

/-- C9: a non-empty label vector as long as the matrix has rows whose least label is not 0
(it lacks the label 0 or holds a negative label, as `[1,1,2,2]` does) makes
`LinearDiscriminant` panic with "Label does not start from zero", the invalid-label-range
failure. -/
theorem LinearDiscriminant_label_not_from_zero (ops : FloatOps F) (solver : EigenSolver F)
    (ld : LD F) (x : Matrix F) (y : List Int) (hne : y ≠ []) (hlen : y.length = x.rows)
    (hmin : 0 ∉ y ∨ ∃ v ∈ y, v < 0) :
    (LinearDiscriminant ops solver ld x (some y)).2 = .error .labelNotFromZero := by
  unfold LinearDiscriminant
  simp only [Option.isSome_some, Option.getD_some, hlen, ne_eq, not_true_eq_false, and_false,
    if_false]
  cases hl : sortInts (uniqueLabels y) with
  | nil => exact absurd ((sortedLabels_eq_nil y).mp hl) hne
  | cons l0 rest =>
    have hh := sortedLabels_head y l0 rest hl
    have h0 : l0 ≠ 0 := by
      intro h
      subst h
      rcases hmin with h1 | ⟨v, hv, hv2⟩
      · exact h1 hh.1
      · have := hh.2 v hv
        omega
    simp [h0]

/-- C9 at the vector `[1,1,2,2]`, whose least label is 1. -/
theorem LinearDiscriminant_label_not_from_zero_witness :
    ([1, 1, 2, 2] : List Int) ≠ [] ∧
    (0 ∉ ([1, 1, 2, 2] : List Int) ∨ ∃ v ∈ ([1, 1, 2, 2] : List Int), v < 0) ∧
    (LinearDiscriminant exactArith failingSolver LD.zero balancedX (some [1, 1, 2, 2])).2 =
      .error .labelNotFromZero :=
  ⟨by decide, Or.inl (by decide),
    LinearDiscriminant_label_not_from_zero exactArith failingSolver LD.zero balancedX
      [1, 1, 2, 2] (by decide) (by decide) (Or.inl (by decide))⟩

/-- C10: `LinearDiscriminant` panics with "Missing class" exactly for the label vectors as
long as the matrix has rows whose least label is 0 and in which two labels `a < b` more
than one apart have no label between them (neighbours in the sorted distinct labels). -/
theorem LinearDiscriminant_missing_class_iff (ops : FloatOps F) (solver : EigenSolver F)
    (ld : LD F) (x : Matrix F) (y : Option (List Int)) :
    (LinearDiscriminant ops solver ld x y).2 = .error .missingClass ↔
      ∃ ys, y = some ys ∧ ys.length = x.rows ∧ 0 ∈ ys ∧ (∀ v ∈ ys, 0 ≤ v) ∧
        ∃ a ∈ ys, ∃ b ∈ ys, a + 1 < b ∧ ∀ c ∈ ys, ¬ (a < c ∧ c < b) := by
  cases y with
  | none =>
    simp [LinearDiscriminant, sortInts, uniqueLabels]
  | some ys =>
    by_cases hlen : ys.length = x.rows
    swap
    · simp [LinearDiscriminant, hlen]
    unfold LinearDiscriminant
    simp only [Option.isSome_some, Option.getD_some, hlen, ne_eq, not_true_eq_false, and_false,
      if_false, Option.some.injEq, exists_eq_left', true_and]
    cases hl : sortInts (uniqueLabels ys) with
    | nil =>
      have := (sortedLabels_eq_nil ys).mp hl
      subst this
      simp
    | cons l0 rest =>
      have hh := sortedLabels_head ys l0 rest hl
      by_cases h0 : l0 = 0
      swap
      · simp only [h0, not_false_eq_true, if_true]
        constructor
        · intro h; cases h
        · rintro ⟨h1, h2, _⟩
          have := hh.2 0 h1
          have := h2 l0 hh.1
          omega
      subst h0
      have hnn : ∀ v ∈ ys, 0 ≤ v := hh.2
      have hchk := checkLabels_sortedLabels ys hnn
      rw [hl] at hchk
      simp only [not_true_eq_false, if_false]
      rcases checkLabels_nonneg (0 :: rest)
        (fun v hv => hnn v ((mem_sortedLabels ys v).mp (hl ▸ hv))) with hc | hc
      · have hno : ¬ ∃ a ∈ ys, ∃ b ∈ ys, a + 1 < b ∧ ∀ c ∈ ys, ¬ (a < c ∧ c < b) := by
          intro h
          have := hchk.mpr h
          rw [hc] at this
          cases this
        rw [hc]
        simp only []
        constructor
        · intro h
          exfalso
          split at h
          · cases h
          · split at h
            · cases h
            · split at h
              · cases h
              · exact estimate_ne_missingClass ops solver _ x ys h
        · rintro ⟨_, _, h⟩
          exact absurd h hno
      · rw [hc]
        simp only [true_iff]
        exact ⟨hh.1, hnn, hchk.mp hc⟩

/-- C10 at the vector `[0,0,2,2]`, where class 1 is missing. -/
theorem LinearDiscriminant_missing_class_example :
    (LinearDiscriminant exactArith failingSolver LD.zero balancedX (some [0, 0, 2, 2])).2 =
      .error .missingClass := by
  decide


/-! ## Valid labels are `0, …, k-1` -/

theorem foldl_invariant {α β : Type} (P : β → Prop) (f : β → α → β) (l : List α) (b : β)
    (h0 : P b) (hstep : ∀ acc a, a ∈ l → P acc → P (f acc a)) : P (l.foldl f b) := by
  induction l generalizing b with
  | nil => exact h0
  | cons a t ih =>
    rw [List.foldl_cons]
    exact ih _ (hstep b a (List.mem_cons_self a t) h0)
      (fun acc c hc hacc => hstep acc c (List.mem_cons_of_mem a hc) hacc)

/-- A strictly increasing list that starts at `s` and never steps by more than one is
`s, s+1, …`. -/
theorem chain_eq_range (l : List Int) (s : Int) (hs : (s :: l).Sorted (· < ·))
    (hc : List.Chain (fun a b => b - a ≤ 1) s l) :
    s :: l = (List.range (l.length + 1)).map (fun i : Nat => s + i) := by
  induction l generalizing s with
  | nil => simp [List.range_succ]
  | cons a t ih =>
    have h1 : a - s ≤ 1 := (List.chain_cons.mp hc).1
    have h2 : s < a := List.rel_of_sorted_cons hs a (List.mem_cons_self a t)
    have h3 : a = s + 1 := by omega
    have ih2 := ih a hs.of_cons (List.chain_cons.mp hc).2
    rw [List.range_succ_eq_map, List.map_cons, List.map_map, List.length_cons]
    congr 1
    · simp
    · conv_lhs => rw [ih2]
      apply List.map_congr_left
      intro i _
      simp only [Function.comp, Nat.cast_succ]
      omega

/-- Labels that pass lines 65–75 are `0, 1, …, k-1` with `k` their number. -/
theorem labels_eq_range (y : List Int) (rest : List Int)
    (hl : sortInts (uniqueLabels y) = 0 :: rest) (hc : checkLabels (0 :: rest) = none) :
    sortInts (uniqueLabels y) = (List.range (rest.length + 1)).map (fun i : Nat => (i : Int)) := by
  have hs := sortedLabels_sorted y
  rw [hl] at hs ⊢
  have hnn : ∀ v ∈ (0 :: rest : List Int), 0 ≤ v := by
    intro v hv
    rcases List.mem_cons.mp hv with h | h
    · omega
    · exact le_of_lt (List.rel_of_sorted_cons hs v h)
  have hch := (checkLabels_eq_none _ hnn).mp hc
  have := chain_eq_range rest 0 hs hch
  simpa using this

/-- After the label checks every label of `y` is an index below the number of classes. -/
theorem label_lt_of_checked (y : List Int) (rest : List Int)
    (hl : sortInts (uniqueLabels y) = 0 :: rest) (hc : checkLabels (0 :: rest) = none) :
    ∀ v ∈ y, 0 ≤ v ∧ v.toNat < rest.length + 1 := by
  intro v hv
  have h := (mem_sortedLabels y v).mpr hv
  rw [labels_eq_range y rest hl hc] at h
  obtain ⟨i, hi, rfl⟩ := List.mem_map.mp h
  have := List.mem_range.mp hi
  exact ⟨by omega, by simpa using this⟩

/-- Labels whose set is `{0, …, k-1}` sort to `0, 1, …, k-1`. -/
theorem sortedLabels_of_range (y : List Int) (k : Nat) (h : ∀ v : Int, v ∈ y ↔ 0 ≤ v ∧ v < k) :
    sortInts (uniqueLabels y) = (List.range k).map (fun i : Nat => (i : Int)) := by
  apply List.eq_of_perm_of_sorted _ (sortedLabels_sorted y)
  · apply List.Pairwise.map (R := (· < ·))
    · intro a b hab
      exact Int.ofNat_lt.mpr hab
    · exact List.pairwise_lt_range k
  · rw [List.perm_ext_iff_of_nodup (sortedLabels_sorted y).nodup]
    · intro v
      rw [mem_sortedLabels, h, List.mem_map]
      constructor
      · rintro ⟨h1, h2⟩
        exact ⟨v.toNat, List.mem_range.mpr (by omega), by omega⟩
      · rintro ⟨i, hi, rfl⟩
        have := List.mem_range.mp hi
        exact ⟨by omega, by omega⟩
    · apply List.Nodup.map
      · intro a b hab
        exact Int.ofNat_inj.mp hab
      · exact List.nodup_range k

theorem checkLabels_range (k : Nat) :
    checkLabels ((List.range k).map (fun i : Nat => (i : Int))) = none := by
  rw [checkLabels_eq_none]
  · rw [List.chain'_map]
    cases k with
    | zero => simp
    | succ n =>
      rw [List.chain'_range_succ]
      intro m _
      push_cast
      omega
  · intro v hv
    obtain ⟨i, _, rfl⟩ := List.mem_map.mp hv
    omega

/-! ## `LinearDiscriminant`: the estimation stage -/

theorem sumRows_ok (ops : FloatOps F) (x : Matrix F) (p : Nat) (y : List Int) (k : Nat)
    (hy : ∀ v ∈ y, 0 ≤ v ∧ v.toNat < k) (rows : List Nat) (hrows : ∀ i ∈ rows, i < y.length)
    (acc : List Nat × Matrix F) (hacc : acc.1.length = k) :
    (sumRows ops x p y rows acc).2 = none ∧ (sumRows ops x p y rows acc).1.1.length = k := by
  induction rows generalizing acc with
  | nil => exact ⟨rfl, hacc⟩
  | cons i is ih =>
    have hi : i < y.length := hrows i (List.mem_cons_self i is)
    have hyi := hy (y[i]) (List.getElem_mem hi)
    rw [sumRows, List.getElem?_eq_getElem hi]
    simp only [sumRow, hacc, hyi.1, hyi.2, and_self, if_true]
    apply ih (fun j hj => hrows j (List.mem_cons_of_mem i hj))
    simp [hacc]

theorem Set_At (m : Matrix F) (i j : Nat) (v : F) (a b : Nat) :
    (m.Set i j v).At a b = if a = i ∧ b = j then v else m.At a b := rfl

theorem covScaleRow_At_of_ne (ops : FloatOps F) (d : F) (C : Matrix F) (j a b : Nat)
    (ha : a ≠ j) (hb : b ≠ j) : (covScaleRow ops d C j).At a b = C.At a b := by
  unfold covScaleRow
  apply foldl_invariant (fun M : Matrix F => M.At a b = C.At a b)
  · rfl
  · intro acc l _ hacc
    simp only [Set_At]
    rw [if_neg (by omega), if_neg (by omega)]
    exact hacc

theorem covScaleRow_At_diag (ops : FloatOps F) (d : F) (C : Matrix F) (j : Nat) :
    (covScaleRow ops d C j).At j j = ops.div (C.At j j) d := by
  unfold covScaleRow
  rw [List.range_succ, List.foldl_append]
  simp only [List.foldl_cons, List.foldl_nil, Set_At, and_self, if_true]
  congr 1
  apply foldl_invariant (fun M : Matrix F => M.At j j = C.At j j)
  · rfl
  · intro acc l hl hacc
    have := List.mem_range.mp hl
    simp only [Set_At]
    rw [if_neg (by omega), if_neg (by omega)]
    exact hacc

/-- The singularity loop stops exactly when some diagonal entry, divided by `d`, is below
`tol2`. -/
theorem covScale_eq_none_iff (ops : FloatOps F) (d tol2 : F) (js : List Nat) (hnd : js.Nodup)
    (C : Matrix F) :
    covScale ops d tol2 js C = none ↔
      ∃ j ∈ js, ops.lt (ops.div (C.At j j) d) tol2 = true := by
  induction js generalizing C with
  | nil => simp [covScale]
  | cons j js ih =>
    rw [covScale]
    simp only [covScaleRow_At_diag]
    by_cases h : ops.lt (ops.div (C.At j j) d) tol2 = true
    · simp [h]
    · simp only [h, if_false, Bool.false_eq_true]
      rw [ih (List.nodup_cons.mp hnd).2]
      constructor
      · rintro ⟨a, ha, hlt⟩
        have hne : a ≠ j := fun hh => (List.nodup_cons.mp hnd).1 (hh ▸ ha)
        rw [covScaleRow_At_of_ne ops d C j a a hne hne] at hlt
        exact ⟨a, List.mem_cons_of_mem j ha, hlt⟩
      · rintro ⟨a, ha, hlt⟩
        rcases List.mem_cons.mp ha with h1 | h1
        · subst h1
          exact absurd hlt h
        · have hne : a ≠ j := fun hh => (List.nodup_cons.mp hnd).1 (hh ▸ h1)
          refine ⟨a, h1, ?_⟩
          rw [covScaleRow_At_of_ne ops d C j a a hne hne]
          exact hlt

/-- The outcome of the estimation stage when every label is a class index. -/
theorem estimate_outcome (ops : FloatOps F) (solver : EigenSolver F) (ld : LD F)
    (x : Matrix F) (ys : List Int) (hy : ∀ v ∈ ys, 0 ≤ v ∧ v.toNat < ld.k)
    (hlen : ys.length = ld.n) (hn : ld.n = x.rows) (hp : ld.p = x.cols) :
    ((estimate ops solver ld x ys).2 = .error .closeToSingular ↔
      ∃ j < x.cols, ops.lt (ops.div ((scatter ops x).At j j)
        (ops.ofInt ((x.rows : Int) - ld.k))) (ops.mul ops.tol ops.tol) = true) ∧
    ((estimate ops solver ld x ys).2 = .ok true ↔
      ¬ ∃ j < x.cols, ops.lt (ops.div ((scatter ops x).At j j)
        (ops.ofInt ((x.rows : Int) - ld.k))) (ops.mul ops.tol ops.tol) = true) := by
  have hs := sumRows_ok ops x ld.p ys ld.k hy (List.range ld.n)
    (fun i hi => hlen ▸ List.mem_range.mp hi) (List.replicate ld.k 0, NewDense ops ld.k ld.p)
    (by simp)
  have hcs := covScale_eq_none_iff ops (ops.ofInt ((x.rows : Int) - ld.k))
    (ops.mul ops.tol ops.tol) (List.range x.cols) (List.nodup_range _) (scatter ops x)
  simp only [List.mem_range] at hcs
  unfold estimate
  split
  · rename_i acc e he
    rw [he] at hs
    exact absurd hs.1 (by simp)
  · dsimp only
    rw [hn, hp]
    unfold scatter at hcs
    cases hc : covScale ops (ops.ofInt ((x.rows : Int) - ld.k)) (ops.mul ops.tol ops.tol)
        (List.range x.cols)
        (covAccum ops x x.rows x.cols (colmean ops x.rows x.cols x)
          (NewDense ops x.cols x.cols)) with
    | none =>
      have := hcs.mp hc
      simp only [true_iff, scatter]
      exact ⟨this, by simp [this]⟩
    | some C2 =>
      have : ¬ ∃ j < x.cols, ops.lt (ops.div ((scatter ops x).At j j)
          (ops.ofInt ((x.rows : Int) - ld.k))) (ops.mul ops.tol ops.tol) = true := by
        intro h
        have := hcs.mpr h
        rw [hc] at this
        cases this
      simp only [true_iff]
      exact ⟨by simpa using this, this⟩

/-- Once the checks of lines 41–90 have passed, the call is the estimation stage on the
receiver holding `n`, `p` and `k`. -/
theorem LinearDiscriminant_validated (ops : FloatOps F) (solver : EigenSolver F) (ld : LD F)
    (x : Matrix F) (ys : List Int) (rest : List Int) (hlen : ys.length = x.rows)
    (hl : sortInts (uniqueLabels ys) = 0 :: rest) (hc : checkLabels (0 :: rest) = none)
    (hk : 2 ≤ rest.length + 1) (hn : rest.length + 1 < x.rows) :
    LinearDiscriminant ops solver ld x (some ys) =
      estimate ops solver { ld with n := x.rows, p := x.cols, k := rest.length + 1 } x ys := by
  unfold LinearDiscriminant
  simp only [Option.isSome_some, Option.getD_some, hlen, ne_eq, not_true_eq_false, and_false,
    if_false, hl, hc, List.length_cons, ops.tol_nonneg, Bool.false_eq_true]
  rw [if_neg (by omega), if_neg (by omega)]

/-! ## Valid labels and the singularity check -/

/-- Valid labels: the call is the estimation stage. -/
theorem LinearDiscriminant_of_valid (ops : FloatOps F) (solver : EigenSolver F) (ld : LD F)
    (x : Matrix F) (y : List Int) (k : Nat) (hlen : y.length = x.rows)
    (hlab : ∀ v : Int, v ∈ y ↔ 0 ≤ v ∧ v < k) (hk : 2 ≤ k) (hn : k < x.rows) :
    LinearDiscriminant ops solver ld x (some y) =
      estimate ops solver { ld with n := x.rows, p := x.cols, k := k } x y ∧
    ∀ v ∈ y, 0 ≤ v ∧ v.toNat < k := by
  have hl := sortedLabels_of_range y k hlab
  obtain ⟨k1, rfl⟩ : ∃ k1, k = k1 + 1 := ⟨k - 1, by omega⟩
  have hl2 : sortInts (uniqueLabels y) =
      0 :: (List.range k1).map (fun i : Nat => ((i + 1 : Nat) : Int)) := by
    rw [hl, List.range_succ_eq_map, List.map_cons, List.map_map]
    rfl
  have hc := checkLabels_range (k1 + 1)
  rw [← hl, hl2] at hc
  have hlen2 : ((List.range k1).map (fun i : Nat => ((i + 1 : Nat) : Int))).length = k1 := by
    simp
  have h := LinearDiscriminant_validated ops solver ld x y _ hlen hl2 hc (by rw [hlen2]; exact hk)
    (by rw [hlen2]; exact hn)
  rw [hlen2] at h
  refine ⟨h, ?_⟩
  intro v hv
  have := (hlab v).mp hv
  exact ⟨this.1, by omega⟩

theorem trainY_labels (v : Int) : v ∈ trainY ↔ 0 ≤ v ∧ v < (2 : Nat) := by
  simp only [trainY, List.mem_cons, List.mem_singleton, List.not_mem_nil, or_false]
  omega

/-! ### A constant column in exact arithmetic -/

theorem foldl_add_const (c : ℚ) (xs : List XReal) (h : ∀ v ∈ xs, v = XReal.fin c) (a : ℚ) :
    xs.foldl XReal.add (XReal.fin a) = XReal.fin (a + xs.length * c) := by
  induction xs generalizing a with
  | nil => simp
  | cons v t ih =>
    rw [List.foldl_cons, h v (List.mem_cons_self v t)]
    show List.foldl XReal.add (XReal.fin (a + c)) t = _
    rw [ih (fun w hw => h w (List.mem_cons_of_mem v hw))]
    congr 1
    simp only [List.length_cons]
    push_cast
    ring

/-- In exact arithmetic the mean of a constant column is the constant. -/
theorem colmean_const (logQ : ℚ → ℚ) (hypotQ : ℚ → ℚ → ℚ) (x : Matrix XReal) (j : Nat)
    (c : ℚ) (hj : j < x.cols) (hn : 0 < x.rows) (hc : ∀ i < x.rows, x.At i j = .fin c) :
    (colmean (exactOps logQ hypotQ) x.rows x.cols x).getD j (exactOps logQ hypotQ).zero =
      .fin c := by
  unfold colmean
  rw [List.getD_eq_getElem?_getD, List.getElem?_map, List.getElem?_range hj]
  simp only [Option.map_some', Option.getD_some, exactOps]
  rw [foldl_add_const c]
  · simp only [Col, List.length_map, List.length_range, zero_add, XReal.div]
    have hne : ((x.rows : Int) : ℚ) ≠ 0 := by
      have : (x.rows : Int) ≠ 0 := by omega
      exact_mod_cast this
    rw [if_neg hne]
    congr 1
    field_simp
  · intro v hv
    obtain ⟨i, hi, rfl⟩ := List.mem_map.mp hv
    exact hc i (List.mem_range.mp hi)

/-- In exact arithmetic a constant column has scatter zero with itself. -/
theorem scatter_const (logQ : ℚ → ℚ) (hypotQ : ℚ → ℚ → ℚ) (x : Matrix XReal) (j : Nat)
    (c : ℚ) (hj : j < x.cols) (hn : 0 < x.rows) (hc : ∀ i < x.rows, x.At i j = .fin c) :
    (scatter (exactOps logQ hypotQ) x).At j j = .fin 0 := by
  have hm := colmean_const logQ hypotQ x j c hj hn hc
  unfold scatter covAccum
  apply foldl_invariant (fun M : Matrix XReal => M.At j j = .fin 0)
  · rfl
  · intro M i hi hM
    apply foldl_invariant (fun M : Matrix XReal => M.At j j = .fin 0)
    · exact hM
    · intro M1 j1 _ hM1
      apply foldl_invariant (fun M : Matrix XReal => M.At j j = .fin 0)
      · exact hM1
      · intro M2 l _ hM2
        rw [Set_At]
        by_cases h : j = j1 ∧ j = l
        · obtain ⟨h1, h2⟩ := h
          subst h1
          subst h2
          rw [if_pos ⟨rfl, rfl⟩, hM2, hm, hc i (List.mem_range.mp hi)]
          simp [exactOps, XReal.sub, XReal.neg, XReal.add, XReal.mul]
        · rw [if_neg h]
          exact hM2

/-! ### The outcome does not depend on the factorization -/

theorem estimate_outcome_solver (ops : FloatOps F) (solver solver1 : EigenSolver F) (ld : LD F)
    (x : Matrix F) (ys : List Int) :
    (estimate ops solver ld x ys).2 = (estimate ops solver1 ld x ys).2 := by
  unfold estimate
  split
  · rfl
  · dsimp only
    split <;> rfl

theorem LinearDiscriminant_outcome_solver (ops : FloatOps F) (solver solver1 : EigenSolver F)
    (ld : LD F) (x : Matrix F) (y : Option (List Int)) :
    (LinearDiscriminant ops solver ld x y).2 = (LinearDiscriminant ops solver1 ld x y).2 := by
  unfold LinearDiscriminant
  dsimp only
  split
  · rfl
  · split
    · rfl
    · split
      · rfl
      · split
        · rfl
        · split
          · rfl
          · split
            · rfl
            · split
              · rfl
              · exact estimate_outcome_solver ops solver solver1 _ x _

/-! ### The receiver after a failed call (C8) -/

theorem estimate_state_on_failure (ops : FloatOps F) (solver : EigenSolver F) (ld : LD F)
    (x : Matrix F) (ys : List Int) (hy : ∀ v ∈ ys, 0 ≤ v ∧ v.toNat < ld.k)
    (hlen : ys.length = ld.n) (e : Failure)
    (h : (estimate ops solver ld x ys).2 = .error e) :
    e = .closeToSingular ∧
      ∃ mu ct, (estimate ops solver ld x ys).1 = { ld with mu := some mu, ct := ct } := by
  have hs := sumRows_ok ops x ld.p ys ld.k hy (List.range ld.n)
    (fun i hi => hlen ▸ List.mem_range.mp hi) (List.replicate ld.k 0, NewDense ops ld.k ld.p)
    (by simp)
  unfold estimate at h ⊢
  split at h
  · rename_i acc e1 he
    rw [he] at hs
    exact absurd hs.1 (by simp)
  · dsimp only at h ⊢
    split at h
    · exact ⟨by simpa using h.symm, _, _, rfl⟩
    · cases h

/-- The receiver after a failed call, by the check that failed: the label checks leave
`n` and `p` written, the class-count and sample-size checks also `k`, the singularity
check also `mu` and `ct`. -/
theorem LinearDiscriminant_failure_cases (ops : FloatOps F) (solver : EigenSolver F)
    (ld : LD F) (x : Matrix F) (y : Option (List Int)) (e : Failure)
    (h : (LinearDiscriminant ops solver ld x y).2 = .error e) :
    ((e = .sizesDontMatch ∨ e = .indexOutOfRange ∨ e = .labelNotFromZero ∨
        e = .missingClass) ∧
      (LinearDiscriminant ops solver ld x y).1 = { ld with n := x.rows, p := x.cols }) ∨
    (∃ k, 1 ≤ k ∧ (e = .onlyOneClass ∨ e = .sampleSizeTooSmall) ∧
      (LinearDiscriminant ops solver ld x y).1 =
        { ld with n := x.rows, p := x.cols, k := k }) ∨
    (∃ k mu ct, 1 ≤ k ∧ e = .closeToSingular ∧
      (LinearDiscriminant ops solver ld x y).1 =
        { ld with n := x.rows, p := x.cols, k := k, mu := some mu, ct := ct }) := by
  by_cases hsz : y.isSome ∧ (y.getD []).length ≠ x.rows
  · have : LinearDiscriminant ops solver ld x y =
        ({ ld with n := x.rows, p := x.cols }, .error .sizesDontMatch) := by
      unfold LinearDiscriminant
      simp only [hsz, ne_eq, not_false_eq_true, and_self, if_true]
    rw [this] at h ⊢
    have : e = .sizesDontMatch := by simpa using h.symm
    subst this
    exact Or.inl ⟨Or.inl rfl, rfl⟩
  cases hl : sortInts (uniqueLabels (y.getD [])) with
  | nil =>
    have : LinearDiscriminant ops solver ld x y =
        ({ ld with n := x.rows, p := x.cols }, .error .indexOutOfRange) := by
      unfold LinearDiscriminant
      simp only [hsz, if_false, hl]
    rw [this] at h ⊢
    have : e = .indexOutOfRange := by simpa using h.symm
    subst this
    exact Or.inl ⟨Or.inr (Or.inl rfl), rfl⟩
  | cons l0 rest =>
    by_cases h0 : l0 = 0
    swap
    · have : LinearDiscriminant ops solver ld x y =
          ({ ld with n := x.rows, p := x.cols }, .error .labelNotFromZero) := by
        unfold LinearDiscriminant
        simp only [hsz, if_false, hl, ne_eq, h0, not_false_eq_true, if_true]
      rw [this] at h ⊢
      have : e = .labelNotFromZero := by simpa using h.symm
      subst this
      exact Or.inl ⟨Or.inr (Or.inr (Or.inl rfl)), rfl⟩
    subst h0
    cases hc : checkLabels (0 :: rest) with
    | some e1 =>
      have : LinearDiscriminant ops solver ld x y =
          ({ ld with n := x.rows, p := x.cols }, .error e1) := by
        unfold LinearDiscriminant
        simp only [hsz, if_false, hl, ne_eq, not_true_eq_false, hc]
      rw [this] at h ⊢
      have : e = e1 := by simpa using h.symm
      subst this
      have hh := sortedLabels_head (y.getD []) 0 rest hl
      have hnn : ∀ v ∈ (0 :: rest : List Int), 0 ≤ v :=
        fun v hv => hh.2 v ((mem_sortedLabels _ v).mp (hl ▸ hv))
      rcases checkLabels_nonneg _ hnn with h1 | h1
      · rw [h1] at hc
        cases hc
      · rw [h1] at hc
        have : e = .missingClass := by simpa using hc.symm
        subst this
        exact Or.inl ⟨Or.inr (Or.inr (Or.inr rfl)), rfl⟩
    | none =>
      by_cases hk : rest.length + 1 < 2
      · have : LinearDiscriminant ops solver ld x y =
            ({ ld with n := x.rows, p := x.cols, k := rest.length + 1 },
              .error .onlyOneClass) := by
          unfold LinearDiscriminant
          simp only [hsz, if_false, hl, ne_eq, not_true_eq_false, hc, List.length_cons, hk,
            if_true]
        rw [this] at h ⊢
        have : e = .onlyOneClass := by simpa using h.symm
        subst this
        exact Or.inr (Or.inl ⟨rest.length + 1, by omega, Or.inl rfl, rfl⟩)
      by_cases hn : x.rows ≤ rest.length + 1
      · have : LinearDiscriminant ops solver ld x y =
            ({ ld with n := x.rows, p := x.cols, k := rest.length + 1 },
              .error .sampleSizeTooSmall) := by
          unfold LinearDiscriminant
          simp only [hsz, if_false, hl, ne_eq, not_true_eq_false, hc, List.length_cons, hk,
            ops.tol_nonneg, Bool.false_eq_true, hn, if_true]
        rw [this] at h ⊢
        have : e = .sampleSizeTooSmall := by simpa using h.symm
        subst this
        exact Or.inr (Or.inl ⟨rest.length + 1, by omega, Or.inr rfl, rfl⟩)
      have hrun : LinearDiscriminant ops solver ld x y =
          estimate ops solver { ld with n := x.rows, p := x.cols, k := rest.length + 1 } x
            (y.getD []) := by
        unfold LinearDiscriminant
        simp only [hsz, if_false, hl, ne_eq, not_true_eq_false, hc, List.length_cons, hk,
          ops.tol_nonneg, Bool.false_eq_true, hn]
      have hlen : (y.getD []).length = x.rows := by
        cases y with
        | none =>
          simp [sortInts, uniqueLabels] at hl
        | some ys =>
          by_contra hne
          exact hsz ⟨rfl, hne⟩
      rw [hrun] at h ⊢
      obtain ⟨h1, mu, ct, h2⟩ := estimate_state_on_failure ops solver _ x (y.getD [])
        (label_lt_of_checked _ rest hl hc) hlen e h
      subst h1
      exact Or.inr (Or.inr ⟨rest.length + 1, mu, ct, by omega, rfl, h2⟩)


/-- C8 (amended): when `LinearDiscriminant` panics, `n` and `p` hold the dimensions of `x`,
`eigen` and `ok` are as before the call, `ct` and `mu` are as before unless the panic is the
singularity check, and `k` is as before unless the panic is the class-count, sample-size
or singularity check. -/
theorem LinearDiscriminant_state_on_failure (ops : FloatOps F) (solver : EigenSolver F)
    (ld : LD F) (x : Matrix F) (y : Option (List Int)) (e : Failure)
    (h : (LinearDiscriminant ops solver ld x y).2 = .error e) :
    ((LinearDiscriminant ops solver ld x y).1.n = x.rows ∧
      (LinearDiscriminant ops solver ld x y).1.p = x.cols ∧
      (LinearDiscriminant ops solver ld x y).1.eigen = ld.eigen ∧
      (LinearDiscriminant ops solver ld x y).1.ok = ld.ok) ∧
    (e = .closeToSingular ∨
      ((LinearDiscriminant ops solver ld x y).1.ct = ld.ct ∧
        (LinearDiscriminant ops solver ld x y).1.mu = ld.mu)) ∧
    (e = .closeToSingular ∨ e = .onlyOneClass ∨ e = .sampleSizeTooSmall ∨
      (LinearDiscriminant ops solver ld x y).1.k = ld.k) := by
  rcases LinearDiscriminant_failure_cases ops solver ld x y e h with
    ⟨_, hs⟩ | ⟨k, _, he, hs⟩ | ⟨k, mu, ct, _, he, hs⟩
  · rw [hs]
    exact ⟨⟨rfl, rfl, rfl, rfl⟩, Or.inr ⟨rfl, rfl⟩, Or.inr (Or.inr (Or.inr rfl))⟩
  · rw [hs]
    refine ⟨⟨rfl, rfl, rfl, rfl⟩, Or.inr ⟨rfl, rfl⟩, ?_⟩
    rcases he with he | he
    · exact Or.inr (Or.inl he)
    · exact Or.inr (Or.inr (Or.inl he))
  · rw [hs]
    exact ⟨⟨rfl, rfl, rfl, rfl⟩, Or.inl he, Or.inl he⟩

unseal Rat.add Rat.sub Rat.mul Rat.inv in
/-- C8 (amended) on a fresh model and the labels `[1,1,2]`. -/
theorem LinearDiscriminant_state_on_failure_witness :
    (LinearDiscriminant exactArith failingSolver LD.zero trainX (some [1, 1, 2])).2 =
      .error .labelNotFromZero ∧
    (LinearDiscriminant exactArith failingSolver LD.zero trainX (some [1, 1, 2])).1.n = 3 ∧
    (LinearDiscriminant exactArith failingSolver LD.zero trainX (some [1, 1, 2])).1.k = 0 :=
  ⟨by decide,
    (LinearDiscriminant_state_on_failure exactArith failingSolver LD.zero trainX (some [1, 1, 2])
      .labelNotFromZero (by decide)).1.1,
    ((LinearDiscriminant_state_on_failure exactArith failingSolver LD.zero trainX (some [1, 1, 2])
      .labelNotFromZero (by decide)).2.2.resolve_left (by decide)).resolve_left (by decide)
      |>.resolve_left (by decide)⟩

unseal Rat.add Rat.sub Rat.mul Rat.inv in
/-- C8 as stated fails: a failed call on a fresh model has overwritten `n` and `p`, and a
call that fails at the singularity check has also overwritten `k`, `ct` and `mu`. -/
theorem LinearDiscriminant_not_atomic :
    (LinearDiscriminant exactArith failingSolver LD.zero trainX (some [1, 1, 2])).2 =
      .error .labelNotFromZero ∧
    (LinearDiscriminant exactArith failingSolver LD.zero trainX (some [1, 1, 2])).1.n ≠
      (LD.zero : LD XReal).n ∧
    (LinearDiscriminant exactArith failingSolver LD.zero trainX (some [1, 1, 2])).1.p ≠
      (LD.zero : LD XReal).p ∧
    (LinearDiscriminant exactArith failingSolver LD.zero constX (some trainY)).2 =
      .error .closeToSingular ∧
    (LinearDiscriminant exactArith failingSolver LD.zero constX (some trainY)).1.k ≠
      (LD.zero : LD XReal).k ∧
    (LinearDiscriminant exactArith failingSolver LD.zero constX (some trainY)).1.ct ≠
      (LD.zero : LD XReal).ct ∧
    (LinearDiscriminant exactArith failingSolver LD.zero constX (some trainY)).1.mu.isSome ≠
      (LD.zero : LD XReal).mu.isSome := by
  decide

/-! ## `Predict` -/

theorem predictLoop_input (ops : FloatOps F) (ld : LD F) (x x1 : List F) (cls : List Nat)
    (st : Nat × F) : predictLoop ops ld x cls st = predictLoop ops ld x1 cls st := by
  induction cls generalizing st with
  | nil => rfl
  | cons i is ih =>
    have hd : (deviation ops ld x i).toOption.isSome = (deviation ops ld x1 i).toOption.isSome
        ∧ ∀ e, deviation ops ld x i = .error e ↔ deviation ops ld x1 i = .error e := by
      unfold deviation
      split
      · simp [Except.toOption]
      · split
        · simp [Except.toOption]
        · split <;> simp [Except.toOption]
    rw [predictLoop, predictLoop]
    cases h1 : deviation ops ld x i with
    | error e =>
      rw [(hd.2 e).mp h1]
    | ok d =>
      cases h2 : deviation ops ld x1 i with
      | error e =>
        rw [(hd.2 e).mpr h2] at h1
        cases h1
      | ok d1 =>
        simp only [ih]

/-- The result of `Predict` is the same for all inputs of one length: the input enters the
loop only through `d`, which is never read. -/
theorem Predict_input (ops : FloatOps F) (ld : LD F) (x x1 : List F)
    (h : x.length = x1.length) : Predict ops ld x = Predict ops ld x1 := by
  unfold Predict
  rw [h, predictLoop_input ops ld x x1]

/-! ### Exact arithmetic on finite values -/

theorem XReal.add_fin (a b : ℚ) : XReal.add (.fin a) (.fin b) = .fin (a + b) := rfl

theorem XReal.sub_fin (a b : ℚ) : XReal.sub (.fin a) (.fin b) = .fin (a - b) := by
  simp [XReal.sub, XReal.neg, XReal.add, sub_eq_add_neg]

theorem XReal.mul_fin (a b : ℚ) : XReal.mul (.fin a) (.fin b) = .fin (a * b) := rfl

theorem XReal.div_fin (a b : ℚ) (hb : b ≠ 0) : XReal.div (.fin a) (.fin b) = .fin (a / b) := by
  simp [XReal.div, hb]

theorem XReal.lt_fin (a b : ℚ) : XReal.lt (.fin a) (.fin b) = decide (a < b) := rfl

theorem XReal.negInf_lt_fin (a : ℚ) : XReal.lt .negInf (.fin a) = true := rfl

theorem XReal.cabs_real (h : ℚ → ℚ → ℚ) (a : ℚ) :
    XReal.cabs h (.fin a) (.fin 0) = .fin (if a < 0 then -a else a) := by
  simp [XReal.cabs]

unseal Rat.add Rat.sub Rat.mul Rat.inv in
/-- C2: the prior is the `int` quotient `ni[i] / ld.n` converted afterwards, so a class
with fewer than `n` rows gets the prior `float64(0)`. On `trainX`, `trainY` the call
succeeds with class counts 2 and 1 of 3 rows, priors `0, 0` instead of `2/3, 1/3`, and
constant terms `log 0 = -Inf`. -/
theorem LinearDiscriminant_priors_truncated :
    (∀ (G : Type) (ops : FloatOps G) (c m : Nat),
      priori ops (c + m + 1) [c] = [ops.ofInt 0]) ∧
    (LinearDiscriminant exactArith failingSolver LD.zero trainX (some trainY)).2 = .ok true ∧
    (sumRows exactArith trainX 1 trainY (List.range 3)
      (List.replicate 2 0, NewDense exactArith 2 1)).1.1 = [2, 1] ∧
    priori exactArith 3 [2, 1] = [.fin 0, .fin 0] ∧
    (LinearDiscriminant exactArith failingSolver LD.zero trainX (some trainY)).1.ct =
      [.negInf, .negInf] ∧
    exactArith.div (exactArith.ofInt 2) (exactArith.ofInt 3) = .fin (2 / 3) ∧
    exactArith.div (exactArith.ofInt 1) (exactArith.ofInt 3) = .fin (1 / 3) := by
  refine ⟨?_, by decide, by decide, by decide, by decide, by decide, by decide⟩
  intro G ops c m
  have : c / (c + m + 1) = 0 := Nat.div_eq_of_lt (by omega)
  show [ops.ofInt ((c / (c + m + 1) : Nat) : Int)] = [ops.ofInt 0]
  rw [this]
  rfl

/-! ## `Transform` (C3) -/

/-- C3 (amended): on a model that holds a factorization with eigenvector matrix `V`, for an
input `x` with as many rows as the training data (`ld.n`) and as many columns as `V` has
rows, `Transform` returns the product `x·V`. -/
theorem Transform_same_rows (ops : FloatOps F) (ld : LD F) (x : Matrix F) (e : EigenResult F)
    (he : ld.eigen = some e) (hrows : x.rows = ld.n) (hcols : x.cols = e.vectors.rows)
    (hn : 0 < x.rows) (hp : 0 < e.vectors.cols) :
    Transform ops ld x = .ok (matMul ops x e.vectors) := by
  unfold Transform eigenVectors
  rw [he]
  simp only [Mul, NewDense, hcols, ← hrows, ne_eq, not_true_eq_false, or_self, if_false]
  rw [if_neg (by omega), if_neg (by omega)]

/-- The complement of C3 (amended): with a row count different from `ld.n`, and no empty
dimension, `Transform` fails on the shape of its preallocated result. -/
theorem Transform_other_rows (ops : FloatOps F) (ld : LD F) (x : Matrix F) (e : EigenResult F)
    (he : ld.eigen = some e) (hrows : x.rows ≠ ld.n) (hn : 0 < x.rows) (hn1 : 0 < ld.n)
    (hp : 0 < e.vectors.cols) :
    Transform ops ld x = .error .matShape := by
  unfold Transform eigenVectors
  rw [he]
  simp only [Mul, NewDense]
  split
  · rfl
  · rw [if_neg (by omega), if_neg (by omega), if_pos (Or.inl (Ne.symm hrows))]

/-- C3 (amended) on `balancedModel` and its training matrix. -/
theorem Transform_same_rows_witness :
    balancedX.rows = (balancedModel 0).n ∧ 0 < balancedX.rows ∧
    Transform exactArith (balancedModel 0) balancedX =
      .ok (matMul exactArith balancedX ⟨1, 1, fun _ _ => .fin 1⟩) :=
  ⟨by decide, by decide,
    Transform_same_rows exactArith (balancedModel 0) balancedX
      ⟨[(.fin 10, .fin 0)], ⟨1, 1, fun _ _ => .fin 1⟩⟩ rfl (by decide) (by decide) (by decide)
      (by decide)⟩

unseal Rat.add Rat.sub Rat.mul Rat.inv in
/-- C3 as stated fails: the model fitted on the four rows of `balancedX` transforms
`balancedX`, and panics on the three rows of `trainX`, which has the right column count. -/
theorem Transform_fails_on_other_row_count :
    (LinearDiscriminant exactArith (solver1x1 exactArith) LD.zero balancedX (some balancedY)).2 =
      .ok true ∧
    balancedFit.n = 4 ∧ trainX.rows = 3 ∧ trainX.cols = balancedFit.p ∧
    (Transform exactArith balancedFit balancedX).map Matrix.toLists =
      .ok [[.fin 1], [.fin 3], [.fin 5], [.fin 7]] ∧
    (Transform exactArith balancedFit trainX).map Matrix.toLists = .error .matShape := by
  decide

/-! ## Models that hold no factorization -/

theorem Transform_of_no_factorization (ops : FloatOps F) (ld : LD F) (x : Matrix F)
    (h : ld.eigen = none) : Transform ops ld x = .error .matBadFact := by
  unfold Transform eigenVectors
  rw [h]

theorem Predict_wrong_length (ops : FloatOps F) (ld : LD F) (x : List F)
    (h : x.length ≠ ld.p) : Predict ops ld x = .error .invalidInputVectorSize := by
  unfold Predict
  rw [if_pos h]

theorem Predict_of_no_class (ops : FloatOps F) (ld : LD F) (x : List F)
    (h : x.length = ld.p) (hk : ld.k = 0) : Predict ops ld x = .ok 0 := by
  unfold Predict
  rw [if_neg (by simpa using h), hk]
  rfl

theorem Predict_of_no_factorization (ops : FloatOps F) (ld : LD F) (x : List F)
    (h : x.length = ld.p) (hk : 1 ≤ ld.k) (he : ld.eigen = none) :
    ∃ f, Predict ops ld x = .error f := by
  unfold Predict
  rw [if_neg (by simpa using h)]
  obtain ⟨k1, hk1⟩ : ∃ k1, ld.k = k1 + 1 := ⟨ld.k - 1, by omega⟩
  rw [hk1, List.range_succ_eq_map, predictLoop]
  cases hd : deviation ops ld x 0 with
  | error e => exact ⟨e, rfl⟩
  | ok d =>
    simp only [eigenValues, he]
    exact ⟨.matBadFact, rfl⟩

/-! ## The checks of lines 41–90, case by case (C11, C12, C13) -/

/-- Every call either stops in one of the checks of lines 41–90, or has a label vector as
long as the matrix has rows whose sorted distinct labels start at 0 and pass the range
check, at least two classes and more rows than classes, and then is the estimation stage. -/
theorem LinearDiscriminant_cases (ops : FloatOps F) (solver : EigenSolver F)
    (ld : LD F) (x : Matrix F) (y : Option (List Int)) :
    (∃ e, (LinearDiscriminant ops solver ld x y).2 = .error e ∧
      (e = .sizesDontMatch ∨ e = .indexOutOfRange ∨ e = .labelNotFromZero ∨
        e = .missingClass ∨ e = .onlyOneClass ∨ e = .sampleSizeTooSmall)) ∨
    (∃ ys rest, y = some ys ∧ ys.length = x.rows ∧
      sortInts (uniqueLabels ys) = 0 :: rest ∧ checkLabels (0 :: rest) = none ∧
      2 ≤ rest.length + 1 ∧ rest.length + 1 < x.rows ∧
      LinearDiscriminant ops solver ld x y =
        estimate ops solver { ld with n := x.rows, p := x.cols, k := rest.length + 1 } x
          ys) := by
  by_cases hsz : y.isSome ∧ (y.getD []).length ≠ x.rows
  · left
    refine ⟨.sizesDontMatch, ?_, Or.inl rfl⟩
    unfold LinearDiscriminant
    simp only [hsz, ne_eq, not_false_eq_true, and_self, if_true]
  cases hl : sortInts (uniqueLabels (y.getD [])) with
  | nil =>
    left
    refine ⟨.indexOutOfRange, ?_, Or.inr (Or.inl rfl)⟩
    unfold LinearDiscriminant
    simp only [hsz, if_false, hl]
  | cons l0 rest =>
    by_cases h0 : l0 = 0
    swap
    · left
      refine ⟨.labelNotFromZero, ?_, Or.inr (Or.inr (Or.inl rfl))⟩
      unfold LinearDiscriminant
      simp only [hsz, if_false, hl, ne_eq, h0, not_false_eq_true, if_true]
    subst h0
    cases hc : checkLabels (0 :: rest) with
    | some e1 =>
      left
      have hh := sortedLabels_head (y.getD []) 0 rest hl
      have hnn : ∀ v ∈ (0 :: rest : List Int), 0 ≤ v :=
        fun v hv => hh.2 v ((mem_sortedLabels _ v).mp (hl ▸ hv))
      rcases checkLabels_nonneg _ hnn with h1 | h1
      · rw [h1] at hc
        cases hc
      · rw [h1] at hc
        have : e1 = .missingClass := by simpa using hc.symm
        subst this
        refine ⟨.missingClass, ?_, Or.inr (Or.inr (Or.inr (Or.inl rfl)))⟩
        unfold LinearDiscriminant
        simp only [hsz, if_false, hl, ne_eq, not_true_eq_false, h1]
    | none =>
      by_cases hk : rest.length + 1 < 2
      · left
        refine ⟨.onlyOneClass, ?_, Or.inr (Or.inr (Or.inr (Or.inr (Or.inl rfl))))⟩
        unfold LinearDiscriminant
        simp only [hsz, if_false, hl, ne_eq, not_true_eq_false, hc, List.length_cons, hk,
          if_true]
      by_cases hn : x.rows ≤ rest.length + 1
      · left
        refine ⟨.sampleSizeTooSmall, ?_, Or.inr (Or.inr (Or.inr (Or.inr (Or.inr rfl))))⟩
        unfold LinearDiscriminant
        simp only [hsz, if_false, hl, ne_eq, not_true_eq_false, hc, List.length_cons, hk,
          ops.tol_nonneg, Bool.false_eq_true, hn, if_true]
      right
      cases y with
      | none => simp [sortInts, uniqueLabels] at hl
      | some ys =>
        have hlen : ys.length = x.rows := by
          by_contra hne
          exact hsz ⟨rfl, hne⟩
        exact ⟨ys, rest, rfl, hlen, hl, hc, by omega, by omega,
          LinearDiscriminant_validated ops solver ld x ys rest hlen hl hc (by omega)
            (by omega)⟩

/-- The estimation stage never writes `n`, `p` or `k`. -/
theorem estimate_fields (ops : FloatOps F) (solver : EigenSolver F) (ld : LD F)
    (x : Matrix F) (ys : List Int) :
    (estimate ops solver ld x ys).1.n = ld.n ∧ (estimate ops solver ld x ys).1.p = ld.p ∧
      (estimate ops solver ld x ys).1.k = ld.k := by
  unfold estimate
  split
  · exact ⟨rfl, rfl, rfl⟩
  · dsimp only
    split <;> exact ⟨rfl, rfl, rfl⟩

/-- C11 (amended): a label vector that is present (not nil) and whose length is not the
number of rows of `x`, the empty vector included, makes `LinearDiscriminant` panic with
"The sizes of X and Y don't match" in its first check, after `n` and `p` were stored. -/
theorem LinearDiscriminant_sizes_dont_match (ops : FloatOps F) (solver : EigenSolver F)
    (ld : LD F) (x : Matrix F) (y : List Int) (hlen : y.length ≠ x.rows) :
    LinearDiscriminant ops solver ld x (some y) =
      ({ ld with n := x.rows, p := x.cols }, .error .sizesDontMatch) := by
  unfold LinearDiscriminant
  simp only [Option.isSome_some, Option.getD_some, ne_eq, hlen, not_false_eq_true, and_self,
    if_true]

unseal Rat.add Rat.sub Rat.mul Rat.inv in
/-- C11 (amended) on `trainX` with the empty, non-nil label vector. -/
theorem LinearDiscriminant_sizes_dont_match_witness :
    ([] : List Int).length ≠ trainX.rows ∧
    (LinearDiscriminant exactArith failingSolver LD.zero trainX (some [])).2 =
      .error .sizesDontMatch :=
  ⟨by decide,
    congrArg Prod.snd
      (LinearDiscriminant_sizes_dont_match exactArith failingSolver LD.zero trainX []
        (by decide))⟩

unseal Rat.add Rat.sub Rat.mul Rat.inv in
/-- C11 as stated fails: with an absent (nil) label vector and three rows the length check
is skipped and the call stops at `labels[0]` with Go's index panic. -/
theorem LinearDiscriminant_nil_labels_skip_size_check :
    trainX.rows = 3 ∧
    (LinearDiscriminant exactArith failingSolver LD.zero trainX none).2 =
      .error .indexOutOfRange := by
  decide

/-- C12: a label vector as long as the matrix has rows that holds the label 0 and fewer
than two distinct labels (so it starts at zero, has no negative label and no gap) makes
`LinearDiscriminant` panic with "Only one class.". -/
theorem LinearDiscriminant_only_one_class (ops : FloatOps F) (solver : EigenSolver F)
    (ld : LD F) (x : Matrix F) (y : List Int) (hlen : y.length = x.rows) (h0 : 0 ∈ y)
    (hone : ∀ a ∈ y, ∀ b ∈ y, a = b) :
    (LinearDiscriminant ops solver ld x (some y)).2 = .error .onlyOneClass := by
  have hall : ∀ v : Int, v ∈ y ↔ 0 ≤ v ∧ v < (1 : Nat) := by
    intro v
    constructor
    · intro hv
      have := hone v hv 0 h0
      subst this
      exact ⟨le_refl _, by decide⟩
    · rintro ⟨h1, h2⟩
      have : v = 0 := by omega
      subst this
      exact h0
  have hl := sortedLabels_of_range y 1 hall
  have hl2 : sortInts (uniqueLabels y) = [0] := by rw [hl]; rfl
  unfold LinearDiscriminant
  simp only [Option.isSome_some, Option.getD_some, hlen, ne_eq, not_true_eq_false, and_false,
    if_false, hl2, checkLabels, checkLabelsFrom, lt_self_iff_false, List.length_cons,
    List.length_nil]
  rfl

/-- C12 on `trainX` with the labels `[0,0,0]`. -/
theorem LinearDiscriminant_only_one_class_witness :
    ([0, 0, 0] : List Int).length = trainX.rows ∧
    (LinearDiscriminant exactArith failingSolver LD.zero trainX (some [0, 0, 0])).2 =
      .error .onlyOneClass :=
  ⟨by decide,
    LinearDiscriminant_only_one_class exactArith failingSolver LD.zero trainX [0, 0, 0]
      (by decide) (by decide) (by decide)⟩

/-- Labels whose set is `{0, …, k-1}` with `k ≥ 1`: the sorted distinct labels start at 0,
pass the range check and are `k` in number. -/
theorem sortedLabels_of_range_cons (y : List Int) (k : Nat)
    (hlab : ∀ v : Int, v ∈ y ↔ 0 ≤ v ∧ v < k) (hk : 1 ≤ k) :
    ∃ rest, sortInts (uniqueLabels y) = 0 :: rest ∧ checkLabels (0 :: rest) = none ∧
      rest.length + 1 = k := by
  have hl := sortedLabels_of_range y k hlab
  obtain ⟨k1, rfl⟩ : ∃ k1, k = k1 + 1 := ⟨k - 1, by omega⟩
  have hl2 : sortInts (uniqueLabels y) =
      0 :: (List.range k1).map (fun i : Nat => ((i + 1 : Nat) : Int)) := by
    rw [hl, List.range_succ_eq_map, List.map_cons, List.map_map]
    rfl
  have hc := checkLabels_range (k1 + 1)
  rw [← hl, hl2] at hc
  exact ⟨_, hl2, hc, by simp⟩

/-- C13: with labels forming exactly `0, …, k-1`, `k ≥ 2`, and a row count `n ≤ k`,
`LinearDiscriminant` panics with "Sample size is too small"; and on every input that does
not stop in a check of lines 41–90 (it returns, or panics at the singularity check) the
stored `n` and `k`, whose difference is the divisor of line 150, satisfy `n − k > 0`. -/
theorem LinearDiscriminant_sample_size (ops : FloatOps F) (solver : EigenSolver F)
    (ld : LD F) (x : Matrix F) :
    (∀ (y : List Int) (k : Nat), y.length = x.rows → (∀ v : Int, v ∈ y ↔ 0 ≤ v ∧ v < k) →
      2 ≤ k → x.rows ≤ k →
      (LinearDiscriminant ops solver ld x (some y)).2 = .error .sampleSizeTooSmall) ∧
    (∀ y : Option (List Int),
      (∀ e, (LinearDiscriminant ops solver ld x y).2 = .error e → e = .closeToSingular) →
      (0 : Int) < ((LinearDiscriminant ops solver ld x y).1.n : Int) -
        ((LinearDiscriminant ops solver ld x y).1.k : Int)) := by
  constructor
  · intro y k hlen hlab hk hn
    obtain ⟨rest, hl, hc, hr⟩ := sortedLabels_of_range_cons y k hlab (by omega)
    unfold LinearDiscriminant
    simp only [Option.isSome_some, Option.getD_some, hlen, ne_eq, not_true_eq_false,
      and_false, if_false, hl, hc, List.length_cons, hr, ops.tol_nonneg, Bool.false_eq_true]
    rw [if_neg (by omega), if_pos hn]
  · intro y hpast
    rcases LinearDiscriminant_cases ops solver ld x y with
      ⟨e, he, hcase⟩ | ⟨ys, rest, _, _, _, _, _, hn, hrun⟩
    · have := hpast e he
      subst this
      rcases hcase with h | h | h | h | h | h <;> cases h
    · rw [hrun]
      obtain ⟨h1, _, h3⟩ := estimate_fields ops solver
        { ld with n := x.rows, p := x.cols, k := rest.length + 1 } x ys
      rw [h1, h3]
      show (0 : Int) < (x.rows : Int) - ((rest.length + 1 : Nat) : Int)
      omega

unseal Rat.add Rat.sub Rat.mul Rat.inv in
/-- C13 on two rows with the two classes 0 and 1, and on `trainX`, `trainY`, which gets
past the check with `n − k = 1`. -/
theorem LinearDiscriminant_sample_size_witness :
    (LinearDiscriminant exactArith failingSolver LD.zero
      (Matrix.ofLists (XReal.fin 0) 2 1 [[.fin 1], [.fin 3]]) (some [0, 1])).2 =
      .error .sampleSizeTooSmall ∧
    (0 : Int) <
      ((LinearDiscriminant exactArith failingSolver LD.zero trainX (some trainY)).1.n : Int) -
      ((LinearDiscriminant exactArith failingSolver LD.zero trainX (some trainY)).1.k : Int) :=
  ⟨(LinearDiscriminant_sample_size exactArith failingSolver LD.zero
      (Matrix.ofLists (XReal.fin 0) 2 1 [[.fin 1], [.fin 3]])).1 [0, 1] 2 (by decide)
      (by
        intro v
        simp only [List.mem_cons, List.mem_singleton, List.not_mem_nil, or_false]
        omega)
      (by decide) (by decide),
    (LinearDiscriminant_sample_size exactArith failingSolver LD.zero trainX).2 (some trainY)
      (by
        intro e h
        have h2 : (LinearDiscriminant exactArith failingSolver LD.zero trainX
            (some trainY)).2 = .ok true := by decide
        rw [h2] at h
        cases h)⟩

/-! ## Labels that pass the checks (C18, C20) -/

/-- C18: when the sorted distinct labels of `y` start at 0 and pass the range check of lines
68–75, they are exactly `0, 1, …, k-1` with `k` their number, strictly increasing, without
duplicates and with the elements of `y`; every label of `y` lies in `[0, k)`, and the loop
of lines 114–119 passes every index check on `ni[y[i]]` and on row `y[i]` of `mu`. -/
theorem checked_labels_are_range (ops : FloatOps F) (x : Matrix F) (p : Nat) (y : List Int)
    (rest : List Int) (hl : sortInts (uniqueLabels y) = 0 :: rest)
    (hc : checkLabels (0 :: rest) = none) :
    sortInts (uniqueLabels y) =
      (List.range (rest.length + 1)).map (fun i : Nat => (i : Int)) ∧
    (sortInts (uniqueLabels y)).Sorted (· < ·) ∧ (sortInts (uniqueLabels y)).Nodup ∧
    (∀ v, v ∈ sortInts (uniqueLabels y) ↔ v ∈ y) ∧
    (∀ v ∈ y, 0 ≤ v ∧ v < ((rest.length + 1 : Nat) : Int)) ∧
    (sumRows ops x p y (List.range y.length)
      (List.replicate (rest.length + 1) 0, NewDense ops (rest.length + 1) p)).2 = none := by
  have hlt := label_lt_of_checked y rest hl hc
  refine ⟨labels_eq_range y rest hl hc, sortedLabels_sorted y, (sortedLabels_sorted y).nodup,
    mem_sortedLabels y, ?_, ?_⟩
  · intro v hv
    have := hlt v hv
    exact ⟨this.1, by omega⟩
  · exact (sumRows_ok ops x p y (rest.length + 1) hlt (List.range y.length)
      (fun i hi => List.mem_range.mp hi) _ (by simp)).1

/-- C18 on the labels `[1, 0, 2, 1]`, whose sorted distinct labels are `0, 1, 2`. -/
theorem checked_labels_are_range_witness :
    sortInts (uniqueLabels [1, 0, 2, 1]) = [0, 1, 2] ∧
    (∀ v ∈ ([1, 0, 2, 1] : List Int), 0 ≤ v ∧ v < ((2 + 1 : Nat) : Int)) ∧
    (sumRows exactArith balancedX 1 [1, 0, 2, 1] (List.range 4)
      (List.replicate 3 0, NewDense exactArith 3 1)).2 = none :=
  ⟨(checked_labels_are_range exactArith balancedX 1 [1, 0, 2, 1] [1, 2] (by decide)
      (by decide)).1,
    (checked_labels_are_range exactArith balancedX 1 [1, 0, 2, 1] [1, 2] (by decide)
      (by decide)).2.2.2.2.1,
    (checked_labels_are_range exactArith balancedX 1 [1, 0, 2, 1] [1, 2] (by decide)
      (by decide)).2.2.2.2.2⟩

/-- C20: no call panics with "Negative class label". Sorted distinct labels that start at
0 hold no negative element, so the loop of lines 68–75 never takes that branch; and a label
vector as long as the matrix has rows that holds a negative label is stopped before, by
"Label does not start from zero". -/
theorem negative_class_label_unreachable (ops : FloatOps F) (solver : EigenSolver F)
    (ld : LD F) (x : Matrix F) :
    (∀ y : Option (List Int),
      (LinearDiscriminant ops solver ld x y).2 ≠ .error .negativeClassLabel) ∧
    (∀ (ys rest : List Int), sortInts (uniqueLabels ys) = 0 :: rest →
      (∀ v ∈ (0 :: rest : List Int), 0 ≤ v) ∧
        checkLabels (0 :: rest) ≠ some .negativeClassLabel) ∧
    (∀ ys : List Int, ys.length = x.rows → (∃ v ∈ ys, v < 0) →
      (LinearDiscriminant ops solver ld x (some ys)).2 = .error .labelNotFromZero) := by
  refine ⟨?_, ?_, ?_⟩
  · intro y h
    rcases LinearDiscriminant_cases ops solver ld x y with
      ⟨e, he, hcase⟩ | ⟨ys, rest, _, _, _, _, _, _, hrun⟩
    · rw [he] at h
      rcases hcase with h1 | h1 | h1 | h1 | h1 | h1 <;> subst h1 <;> cases h
    · rw [hrun] at h
      rcases estimate_failure ops solver _ x ys _ h with h1 | h1 <;> cases h1
  · intro ys rest hl
    have hh := sortedLabels_head ys 0 rest hl
    have hnn : ∀ v ∈ (0 :: rest : List Int), 0 ≤ v :=
      fun v hv => hh.2 v ((mem_sortedLabels _ v).mp (hl ▸ hv))
    refine ⟨hnn, ?_⟩
    rcases checkLabels_nonneg _ hnn with h1 | h1 <;> rw [h1] <;> simp
  · rintro ys hlen ⟨v, hv, hneg⟩
    unfold LinearDiscriminant
    simp only [Option.isSome_some, Option.getD_some, hlen, ne_eq, not_true_eq_false,
      and_false, if_false]
    cases hl : sortInts (uniqueLabels ys) with
    | nil =>
      have := (sortedLabels_eq_nil ys).mp hl
      subst this
      simp at hv
    | cons l0 rest =>
      have hh := sortedLabels_head ys l0 rest hl
      have h0 : l0 ≠ 0 := by
        have := hh.2 v hv
        omega
      simp [h0]

unseal Rat.add Rat.sub Rat.mul Rat.inv in
/-- C20 on `trainX` with the labels `[0, -1, 1]`. -/
theorem negative_class_label_unreachable_witness :
    ([0, -1, 1] : List Int).length = trainX.rows ∧ (∃ v ∈ ([0, -1, 1] : List Int), v < 0) ∧
    (LinearDiscriminant exactArith failingSolver LD.zero trainX (some [0, -1, 1])).2 =
      .error .labelNotFromZero ∧
    (∀ v ∈ (0 :: [1] : List Int), 0 ≤ v) :=
  ⟨by decide, ⟨-1, by decide, by decide⟩,
    (negative_class_label_unreachable exactArith failingSolver LD.zero trainX).2.2
      [0, -1, 1] (by decide) ⟨-1, by decide, by decide⟩,
    ((negative_class_label_unreachable exactArith failingSolver LD.zero trainX).2.1
      trainY [1] (by decide)).1⟩

/-! ## Loops that write a matrix entry by entry -/

/-- A loop over the columns `j < q` of row `c` that replaces entry `(c, j)` by a function of
its value. -/
theorem foldl_Set_cols (M0 : Matrix F) (c : Nat) (f : Nat → F → F) (q a b : Nat) :
    ((List.range q).foldl (fun M j => M.Set c j (f j (M.At c j))) M0).At a b =
      if a = c ∧ b < q then f b (M0.At a b) else M0.At a b := by
  induction q with
  | zero => simp
  | succ q ih =>
    rw [List.range_succ, List.foldl_append, List.foldl_cons, List.foldl_nil, Set_At]
    by_cases h : a = c ∧ b = q
    · obtain ⟨h1, h2⟩ := h
      subst h1
      subst h2
      rw [if_pos ⟨rfl, rfl⟩, if_pos ⟨rfl, Nat.lt_succ_self _⟩]
      have : ((List.range b).foldl (fun M j => M.Set a j (f j (M.At a j))) M0).At a b =
          M0.At a b := by
        apply foldl_invariant (fun M : Matrix F => M.At a b = M0.At a b)
        · rfl
        · intro acc j hj hacc
          have := List.mem_range.mp hj
          rw [Set_At, if_neg (by omega)]
          exact hacc
      rw [this]
    · rw [if_neg h, ih]
      by_cases h2 : a = c ∧ b < q
      · rw [if_pos h2, if_pos ⟨h2.1, by omega⟩]
      · rw [if_neg h2, if_neg (by omega)]

/-- A loop over the rows `i < k` and the columns `j < q i` that replaces every entry it
visits by a function of its value. -/
theorem foldl_Set_rows (M0 : Matrix F) (f : Nat → Nat → F → F) (q : Nat → Nat) (k a b : Nat) :
    ((List.range k).foldl (fun M i =>
      (List.range (q i)).foldl (fun M j => M.Set i j (f i j (M.At i j))) M) M0).At a b =
      if a < k ∧ b < q a then f a b (M0.At a b) else M0.At a b := by
  induction k with
  | zero => simp
  | succ k ih =>
    rw [List.range_succ, List.foldl_append, List.foldl_cons, List.foldl_nil, foldl_Set_cols,
      ih]
    by_cases h : a = k ∧ b < q k
    · obtain ⟨h1, h2⟩ := h
      subst h1
      rw [if_pos ⟨rfl, h2⟩, if_neg (by omega), if_pos ⟨Nat.lt_succ_self _, h2⟩]
    · rw [if_neg h]
      by_cases h2 : a < k ∧ b < q a
      · rw [if_pos h2, if_pos ⟨by omega, h2.2⟩]
      · rw [if_neg h2, if_neg]
        rintro ⟨h3, h4⟩
        have : a = k ∨ a < k := by omega
        rcases this with h5 | h5
        · subst h5
          exact h ⟨rfl, h4⟩
        · exact h2 ⟨h5, h4⟩

theorem sum_set_succ (l : List Nat) (i : Nat) (hi : i < l.length) :
    (l.set i (l.getD i 0 + 1)).sum = l.sum + 1 := by
  induction l generalizing i with
  | nil => simp at hi
  | cons a t ih =>
    cases i with
    | zero => simp; omega
    | succ i =>
      simp only [List.set_cons_succ, List.sum_cons, List.getD_cons_succ]
      rw [ih i (by simpa using hi)]
      omega

/-! ## The class counts and the class sums (C15, C16) -/

/-- One row of the loop of lines 114–119 with a label that is a class index. -/
theorem sumRow_spec (ops : FloatOps F) (x : Matrix F) (p : Nat) (acc : List Nat × Matrix F)
    (i : Nat) (yi : Int) (h0 : 0 ≤ yi) (hlt : yi.toNat < acc.1.length) :
    ∃ acc1, sumRow ops x p acc i yi = some acc1 ∧ acc1.1.length = acc.1.length ∧
      acc1.1.sum = acc.1.sum + 1 ∧
      (∀ c, acc1.1.getD c 0 = if c = yi.toNat then acc.1.getD c 0 + 1 else acc.1.getD c 0) ∧
      (∀ a b, acc1.2.At a b =
        if a = yi.toNat ∧ b < p then ops.add (acc.2.At a b) (x.At i b) else acc.2.At a b) := by
  refine ⟨(acc.1.set yi.toNat (acc.1.getD yi.toNat 0 + 1),
      (List.range p).foldl
        (fun mu j => mu.Set yi.toNat j (ops.add (mu.At yi.toNat j) (x.At i j))) acc.2),
    by simp only [sumRow, h0, hlt, and_self, if_true], by simp,
    sum_set_succ _ _ hlt, ?_, ?_⟩
  · intro c
    by_cases hc : c = yi.toNat
    · subst hc
      simp [List.getD_eq_getElem?_getD, List.getElem?_set, hlt]
    · rw [if_neg hc]
      simp only [List.getD_eq_getElem?_getD]
      rw [List.getElem?_set_ne (Ne.symm hc)]
  · intro a b
    exact foldl_Set_cols acc.2 yi.toNat (fun j v => ops.add v (x.At i j)) p a b

/-- The loop of lines 114–119 over the rows `rows`, for labels that are class indices: the
count of class `c` grows by the number of rows labelled `c`, and the class sum of feature
`j` accumulates those rows in order. -/
theorem sumRows_spec (ops : FloatOps F) (x : Matrix F) (p : Nat) (y : List Int) (k : Nat)
    (hy : ∀ v ∈ y, 0 ≤ v ∧ v.toNat < k) (rows : List Nat) (hrows : ∀ i ∈ rows, i < y.length)
    (acc : List Nat × Matrix F) (hacc : acc.1.length = k) :
    (sumRows ops x p y rows acc).1.1.sum = acc.1.sum + rows.length ∧
    (∀ c : Nat, (sumRows ops x p y rows acc).1.1.getD c 0 =
      acc.1.getD c 0 + (rows.filter (fun r => y[r]? = some (c : Int))).length) ∧
    (∀ c j : Nat, j < p → (sumRows ops x p y rows acc).1.2.At c j =
      (rows.filter (fun r => y[r]? = some (c : Int))).foldl
        (fun s r => ops.add s (x.At r j)) (acc.2.At c j)) := by
  induction rows generalizing acc with
  | nil => simp [sumRows]
  | cons i is ih =>
    have hi : i < y.length := hrows i (List.mem_cons_self i is)
    have hyi := hy (y[i]) (List.getElem_mem hi)
    obtain ⟨acc1, hsr, hlen1, hsum1, hcnt1, hat1⟩ :=
      sumRow_spec ops x p acc i (y[i]) hyi.1 (by rw [hacc]; exact hyi.2)
    have ih1 := ih (fun j hj => hrows j (List.mem_cons_of_mem i hj)) acc1 (by rw [hlen1, hacc])
    have hstep : sumRows ops x p y (i :: is) acc = sumRows ops x p y is acc1 := by
      rw [sumRows, List.getElem?_eq_getElem hi]
      simp only [hsr]
    rw [hstep]
    have hiff : ∀ c : Nat, (y[i]? = some (c : Int)) ↔ c = (y[i]).toNat := by
      intro c
      rw [List.getElem?_eq_getElem hi, Option.some.injEq]
      constructor
      · intro h; rw [h]; simp
      · intro h; rw [h]; exact (Int.toNat_of_nonneg hyi.1).symm
    refine ⟨?_, ?_, ?_⟩
    · rw [ih1.1, hsum1, List.length_cons]
      omega
    · intro c
      rw [ih1.2.1 c, hcnt1 c, List.filter_cons]
      by_cases hc : c = (y[i]).toNat
      · rw [if_pos hc, if_pos (by simpa using (hiff c).mpr hc), List.length_cons]
        omega
      · rw [if_neg hc, if_neg (by simpa using fun h => hc ((hiff c).mp h))]
    · intro c j hj
      rw [ih1.2.2 c j hj, hat1 c j, List.filter_cons]
      by_cases hc : c = (y[i]).toNat
      · rw [if_pos ⟨hc, hj⟩, if_pos (by simpa using (hiff c).mpr hc), List.foldl_cons]
      · rw [if_neg (fun h => hc h.1), if_neg (by simpa using fun h => hc ((hiff c).mp h))]

/-- The class counts of a label vector whose labels are exactly `0, …, k-1`. -/
theorem classCounts_spec (ops : FloatOps F) (x : Matrix F) (y : List Int) (k : Nat)
    (hlen : y.length = x.rows) (hlab : ∀ v : Int, v ∈ y ↔ 0 ≤ v ∧ v < k) :
    (classCounts ops x y k).length = k ∧ (classCounts ops x y k).sum = x.rows ∧
    (∀ i, (classCounts ops x y k).getD i 0 = (rowsOf y x.rows i).length) ∧
    (∀ i < k, 1 ≤ (rowsOf y x.rows i).length ∧ (rowsOf y x.rows i).length < x.rows + 1) := by
  have hy : ∀ v ∈ y, 0 ≤ v ∧ v.toNat < k := by
    intro v hv
    have := (hlab v).mp hv
    exact ⟨this.1, by omega⟩
  have hrows : ∀ i ∈ List.range x.rows, i < y.length :=
    fun i hi => hlen ▸ List.mem_range.mp hi
  have hacc : (List.replicate k 0, NewDense ops k x.cols).1.length = k := by simp
  have hok := sumRows_ok ops x x.cols y k hy (List.range x.rows) hrows _ hacc
  have hsp := sumRows_spec ops x x.cols y k hy (List.range x.rows) hrows _ hacc
  refine ⟨hok.2, ?_, ?_, ?_⟩
  · rw [classCounts, hsp.1]
    simp
  · intro i
    rw [classCounts, hsp.2.1 i, rowsOf]
    simp only [List.getD_eq_getElem?_getD, List.getElem?_replicate]
    split <;> simp
  · intro i hi
    have hmem : (i : Int) ∈ y := (hlab i).mpr ⟨by omega, by omega⟩
    obtain ⟨r, hr, hyr⟩ := List.getElem_of_mem hmem
    constructor
    · apply List.length_pos.mpr
      apply List.ne_nil_of_mem (a := r)
      rw [rowsOf, List.mem_filter]
      exact ⟨List.mem_range.mpr (hlen ▸ hr), by simp [List.getElem?_eq_getElem hr, hyr]⟩
    · have := List.length_filter_le (fun r => decide (y[r]? = some (i : Int)))
        (List.range x.rows)
      rw [List.length_range] at this
      exact Nat.lt_succ_of_le this

theorem Set_dims (m : Matrix F) (i j : Nat) (v : F) :
    (m.Set i j v).rows = m.rows ∧ (m.Set i j v).cols = m.cols := ⟨rfl, rfl⟩

theorem sumRows_dims (ops : FloatOps F) (x : Matrix F) (p : Nat) (y : List Int)
    (rows : List Nat) (acc : List Nat × Matrix F) :
    (sumRows ops x p y rows acc).1.2.rows = acc.2.rows ∧
      (sumRows ops x p y rows acc).1.2.cols = acc.2.cols := by
  induction rows generalizing acc with
  | nil => exact ⟨rfl, rfl⟩
  | cons i is ih =>
    rw [sumRows]
    split
    · exact ⟨rfl, rfl⟩
    · split
      · exact ⟨rfl, rfl⟩
      · rename_i yi _ acc1 hsr
        have := ih acc1
        have hd : acc1.2.rows = acc.2.rows ∧ acc1.2.cols = acc.2.cols := by
          unfold sumRow at hsr
          split at hsr
          · cases hsr
            apply foldl_invariant
              (fun M : Matrix F => M.rows = acc.2.rows ∧ M.cols = acc.2.cols)
            · exact ⟨rfl, rfl⟩
            · intro M j _ hM
              exact hM
          · cases hsr
        exact ⟨this.1.trans hd.1, this.2.trans hd.2⟩

/-- Lines 120–124: every entry of the `k×p` block is divided by the count of its class. -/
theorem divideByCounts_At (ops : FloatOps F) (k p : Nat) (ni : List Nat) (mu : Matrix F)
    (a b : Nat) :
    (divideByCounts ops k p ni mu).At a b =
      if a < k ∧ b < p then ops.div (mu.At a b) (ops.ofInt (ni.getD a 0)) else mu.At a b :=
  foldl_Set_rows mu (fun i _ v => ops.div v (ops.ofInt (ni.getD i 0))) (fun _ => p) k a b

theorem divideByCounts_dims (ops : FloatOps F) (k p : Nat) (ni : List Nat) (mu : Matrix F) :
    (divideByCounts ops k p ni mu).rows = mu.rows ∧
      (divideByCounts ops k p ni mu).cols = mu.cols := by
  unfold divideByCounts
  apply foldl_invariant (fun M : Matrix F => M.rows = mu.rows ∧ M.cols = mu.cols)
  · exact ⟨rfl, rfl⟩
  · intro M i _ hM
    apply foldl_invariant (fun M : Matrix F => M.rows = mu.rows ∧ M.cols = mu.cols)
    · exact hM
    · intro M1 j _ hM1
      exact hM1

/-- The estimation stage on labels that are class indices, in terms of the intermediate
values: the class means and constant terms are stored, then the singularity loop decides. -/
theorem estimate_of_valid (ops : FloatOps F) (solver : EigenSolver F) (ld : LD F)
    (x : Matrix F) (ys : List Int) (hy : ∀ v ∈ ys, 0 ≤ v ∧ v.toNat < ld.k)
    (hlen : ys.length = ld.n) (hn : ld.n = x.rows) (hp : ld.p = x.cols) :
    estimate ops solver ld x ys =
      match pooledCov ops x ld.k with
      | none =>
        ({ ld with
            mu := some (divideByCounts ops ld.k ld.p (classCounts ops x ys ld.k)
              (classSums ops x ys ld.k)),
            ct := constantTerms ops (priori ops ld.n (classCounts ops x ys ld.k)) },
          .error .closeToSingular)
      | some C2 =>
        ({ ld with
            mu := some (divideByCounts ops ld.k ld.p (classCounts ops x ys ld.k)
              (classSums ops x ys ld.k)),
            ct := constantTerms ops (priori ops ld.n (classCounts ops x ys ld.k)),
            eigen := solver C2 },
          .ok true) := by
  have hs := sumRows_ok ops x ld.p ys ld.k hy (List.range ld.n)
    (fun i hi => hlen ▸ List.mem_range.mp hi) (List.replicate ld.k 0, NewDense ops ld.k ld.p)
    (by simp)
  unfold estimate
  split
  · rename_i acc e he
    rw [he] at hs
    exact absurd hs.1 (by simp)
  · rename_i acc he
    have h1 : classCounts ops x ys ld.k = acc.1 := by
      rw [classCounts, ← hn, ← hp, he]
    have h2 : classSums ops x ys ld.k = acc.2 := by
      rw [classSums, ← hn, ← hp, he]
    dsimp only
    rw [h1, h2, pooledCov, scatter, ← hn, ← hp]

/-- A call with valid labels, in terms of the intermediate values. -/
theorem LinearDiscriminant_eq_of_valid (ops : FloatOps F) (solver : EigenSolver F)
    (ld : LD F) (x : Matrix F) (y : List Int) (k : Nat) (hlen : y.length = x.rows)
    (hlab : ∀ v : Int, v ∈ y ↔ 0 ≤ v ∧ v < k) (hk : 2 ≤ k) (hn : k < x.rows) :
    LinearDiscriminant ops solver ld x (some y) =
      match pooledCov ops x k with
      | none =>
        ({ ld with
            n := x.rows, p := x.cols, k := k,
            mu := some (divideByCounts ops k x.cols (classCounts ops x y k)
              (classSums ops x y k)),
            ct := constantTerms ops (priori ops x.rows (classCounts ops x y k)) },
          .error .closeToSingular)
      | some C2 =>
        ({ ld with
            n := x.rows, p := x.cols, k := k,
            mu := some (divideByCounts ops k x.cols (classCounts ops x y k)
              (classSums ops x y k)),
            ct := constantTerms ops (priori ops x.rows (classCounts ops x y k)),
            eigen := solver C2 },
          .ok true) := by
  obtain ⟨h1, h2⟩ := LinearDiscriminant_of_valid ops solver ld x y k hlen hlab hk hn
  rw [h1, estimate_of_valid ops solver _ x y h2 hlen rfl rfl]

theorem classSums_spec (ops : FloatOps F) (x : Matrix F) (y : List Int) (k : Nat)
    (hlen : y.length = x.rows) (hlab : ∀ v : Int, v ∈ y ↔ 0 ≤ v ∧ v < k) :
    (classSums ops x y k).rows = k ∧ (classSums ops x y k).cols = x.cols ∧
    ∀ c j : Nat, j < x.cols → (classSums ops x y k).At c j =
      (rowsOf y x.rows c).foldl (fun s r => ops.add s (x.At r j)) ops.zero := by
  have hy : ∀ v ∈ y, 0 ≤ v ∧ v.toNat < k := by
    intro v hv
    have := (hlab v).mp hv
    exact ⟨this.1, by omega⟩
  have hrows : ∀ i ∈ List.range x.rows, i < y.length :=
    fun i hi => hlen ▸ List.mem_range.mp hi
  have hsp := sumRows_spec ops x x.cols y k hy (List.range x.rows) hrows
    (List.replicate k 0, NewDense ops k x.cols) (by simp)
  have hd := sumRows_dims ops x x.cols y (List.range x.rows)
    (List.replicate k 0, NewDense ops k x.cols)
  exact ⟨hd.1, hd.2, fun c j hj => hsp.2.2 c j hj⟩

/-- C16: for labels forming exactly `0, …, k-1` on `n` rows, the counts `ni` that
`LinearDiscriminant` computes have one entry per class, sum to `n`, count the rows of each
class and are at least 1, so line 122 never divides by `float64(0)`; with `k ≥ 2` and
`n > k` the stored class means and constant terms are computed from these counts. -/
theorem class_counts (ops : FloatOps F) (solver : EigenSolver F) (ld : LD F) (x : Matrix F)
    (y : List Int) (k : Nat) (hlen : y.length = x.rows)
    (hlab : ∀ v : Int, v ∈ y ↔ 0 ≤ v ∧ v < k) :
    (classCounts ops x y k).length = k ∧ (classCounts ops x y k).sum = x.rows ∧
    (∀ i < k, 1 ≤ (classCounts ops x y k).getD i 0) ∧
    (∀ i, (classCounts ops x y k).getD i 0 = (rowsOf y x.rows i).length) ∧
    (2 ≤ k → k < x.rows →
      (LinearDiscriminant ops solver ld x (some y)).1.mu =
        some (divideByCounts ops k x.cols (classCounts ops x y k) (classSums ops x y k)) ∧
      (LinearDiscriminant ops solver ld x (some y)).1.ct =
        constantTerms ops (priori ops x.rows (classCounts ops x y k))) := by
  obtain ⟨h1, h2, h3, h4⟩ := classCounts_spec ops x y k hlen hlab
  refine ⟨h1, h2, ?_, h3, ?_⟩
  · intro i hi
    rw [h3 i]
    exact (h4 i hi).1
  · intro hk hn
    rw [LinearDiscriminant_eq_of_valid ops solver ld x y k hlen hlab hk hn]
    split <;> exact ⟨rfl, rfl⟩

unseal Rat.add Rat.sub Rat.mul Rat.inv in
/-- C16 on `trainX`, `trainY`: the counts are 2 and 1. -/
theorem class_counts_witness :
    trainY.length = trainX.rows ∧ classCounts exactArith trainX trainY 2 = [2, 1] ∧
    (classCounts exactArith trainX trainY 2).sum = trainX.rows ∧
    (∀ i < 2, 1 ≤ (classCounts exactArith trainX trainY 2).getD i 0) :=
  ⟨by decide, by decide,
    (class_counts exactArith failingSolver LD.zero trainX trainY 2 (by decide)
      trainY_labels).2.1,
    (class_counts exactArith failingSolver LD.zero trainX trainY 2 (by decide)
      trainY_labels).2.2.1⟩

/-- C15: for valid labels (`len(y) = n`, labels exactly `0, …, k-1`, `k ≥ 2`, `n > k`) the
matrix `mu` stored by `LinearDiscriminant` is `k×p`, and its entry `(i, j)` is the sum of
`x[r, j]` over the rows `r` labelled `i`, in row order, divided by their number `n_i`. -/
theorem class_means (ops : FloatOps F) (solver : EigenSolver F) (ld : LD F) (x : Matrix F)
    (y : List Int) (k : Nat) (hlen : y.length = x.rows)
    (hlab : ∀ v : Int, v ∈ y ↔ 0 ≤ v ∧ v < k) (hk : 2 ≤ k) (hn : k < x.rows) :
    ∃ mu, (LinearDiscriminant ops solver ld x (some y)).1.mu = some mu ∧
      mu.rows = k ∧ mu.cols = x.cols ∧
      ∀ i < k, ∀ j < x.cols, mu.At i j = specClassMean ops x y i j := by
  obtain ⟨_, _, h3, _⟩ := classCounts_spec ops x y k hlen hlab
  obtain ⟨hr, hc, hat⟩ := classSums_spec ops x y k hlen hlab
  have hd := divideByCounts_dims ops k x.cols (classCounts ops x y k) (classSums ops x y k)
  refine ⟨divideByCounts ops k x.cols (classCounts ops x y k) (classSums ops x y k), ?_,
    hd.1.trans hr, hd.2.trans hc, ?_⟩
  · rw [LinearDiscriminant_eq_of_valid ops solver ld x y k hlen hlab hk hn]
    split <;> rfl
  · intro i hi j hj
    rw [divideByCounts_At, if_pos ⟨hi, hj⟩, hat i j hj, h3 i]
    rfl

unseal Rat.add Rat.sub Rat.mul Rat.inv in
/-- C15 on `balancedX`, `balancedY`: the class means are 2 and 6. -/
theorem class_means_witness :
    balancedY.length = balancedX.rows ∧
    specClassMean exactArith balancedX balancedY 0 0 = .fin 2 ∧
    specClassMean exactArith balancedX balancedY 1 0 = .fin 6 ∧
    ∃ mu, (LinearDiscriminant exactArith failingSolver LD.zero balancedX
        (some balancedY)).1.mu = some mu ∧
      mu.rows = 2 ∧ mu.cols = balancedX.cols ∧
      ∀ i < 2, ∀ j < balancedX.cols, mu.At i j = specClassMean exactArith balancedX balancedY i j :=
  ⟨by decide, by decide, by decide,
    class_means exactArith failingSolver LD.zero balancedX balancedY 2 (by decide)
      (by
        intro v
        simp only [balancedY, List.mem_cons, List.mem_singleton, List.not_mem_nil, or_false]
        omega)
      (by decide) (by decide)⟩

/-! ## The pooled covariance (C14) -/

theorem colmean_getD (ops : FloatOps F) (x : Matrix F) (j : Nat) (hj : j < x.cols) :
    (colmean ops x.rows x.cols x).getD j ops.zero = specGlobalMean ops x j := by
  unfold colmean specGlobalMean Col
  rw [List.getD_eq_getElem?_getD, List.getElem?_map, List.getElem?_range hj]
  simp only [Option.map_some', Option.getD_some, List.foldl_map]

/-- Lines 138–144: entry `(a, b)` of the lower triangle accumulates, row after row, the
product of the deviations of features `a` and `b`; no other entry is written. -/
theorem covAccum_At (ops : FloatOps F) (x : Matrix F) (n p : Nat) (cm : List F)
    (C : Matrix F) (a b : Nat) :
    (covAccum ops x n p cm C).At a b =
      if a < p ∧ b < a + 1 then
        (List.range n).foldl (fun s i => ops.add s
          (ops.mul (ops.sub (x.At i a) (cm.getD a ops.zero))
            (ops.sub (x.At i b) (cm.getD b ops.zero)))) (C.At a b)
      else C.At a b := by
  unfold covAccum
  induction n with
  | zero => simp
  | succ n ih =>
    rw [List.range_succ, List.foldl_append, List.foldl_cons, List.foldl_nil]
    rw [foldl_Set_rows _ (fun j l v => ops.add v
      (ops.mul (ops.sub (x.At n j) (cm.getD j ops.zero))
        (ops.sub (x.At n l) (cm.getD l ops.zero)))) (fun j => j + 1) p a b, ih]
    by_cases h : a < p ∧ b < a + 1
    · simp only [if_pos h, List.foldl_append, List.foldl_cons, List.foldl_nil]
    · simp only [if_neg h]

theorem covAccum_dims (ops : FloatOps F) (x : Matrix F) (n p : Nat) (cm : List F)
    (C : Matrix F) :
    (covAccum ops x n p cm C).rows = C.rows ∧ (covAccum ops x n p cm C).cols = C.cols := by
  unfold covAccum
  apply foldl_invariant (fun M : Matrix F => M.rows = C.rows ∧ M.cols = C.cols)
  · exact ⟨rfl, rfl⟩
  · intro M i _ hM
    apply foldl_invariant (fun M : Matrix F => M.rows = C.rows ∧ M.cols = C.cols)
    · exact hM
    · intro M1 j _ hM1
      apply foldl_invariant (fun M : Matrix F => M.rows = C.rows ∧ M.cols = C.cols)
      · exact hM1
      · intro M2 l _ hM2
        exact hM2

/-- The first `m` steps of lines 149–152 for feature `j`. -/
theorem covScaleRow_prefix (ops : FloatOps F) (d : F) (M : Matrix F) (j m : Nat)
    (hm : m ≤ j + 1) (a b : Nat) :
    ((List.range m).foldl (fun C l =>
      (C.Set j l (ops.div (C.At j l) d)).Set l j (ops.div (C.At j l) d)) M).At a b =
      if a = j ∧ b < m then ops.div (M.At j b) d
      else if b = j ∧ a < m then ops.div (M.At j a) d
      else M.At a b := by
  induction m generalizing a b with
  | zero => simp
  | succ m ih =>
    have ihm := ih (by omega)
    have hjm : ((List.range m).foldl (fun C l =>
        (C.Set j l (ops.div (C.At j l) d)).Set l j (ops.div (C.At j l) d)) M).At j m =
        M.At j m := by
      rw [ihm j m, if_neg (by omega), if_neg (by omega)]
    rw [List.range_succ, List.foldl_append, List.foldl_cons, List.foldl_nil, Set_At, Set_At,
      hjm, ihm a b]
    split_ifs <;> first | rfl | (exfalso; omega) | (congr 2; omega)

/-- Lines 149–152 for feature `j`: row `j` of the lower triangle is divided by `d` and
copied to column `j` of the upper triangle. -/
theorem covScaleRow_At (ops : FloatOps F) (d : F) (M : Matrix F) (j a b : Nat) :
    (covScaleRow ops d M j).At a b =
      if a = j ∧ b < j + 1 then ops.div (M.At j b) d
      else if b = j ∧ a < j + 1 then ops.div (M.At j a) d
      else M.At a b := by
  have h : covScaleRow ops d M j = (List.range (j + 1)).foldl (fun C l =>
      (C.Set j l (ops.div (C.At j l) d)).Set l j (ops.div (C.At j l) d)) M := by
    simp only [covScaleRow, Set_At, and_self, if_true]
  rw [h]
  exact covScaleRow_prefix ops d M j (j + 1) (le_refl _) a b

/-- Lines 148–152 for the features below `m`: the lower triangle of their rows is divided
by `d` and mirrored. -/
theorem covScaleRows_At (ops : FloatOps F) (d : F) (C : Matrix F) (m a b : Nat) :
    ((List.range m).foldl (covScaleRow ops d) C).At a b =
      if a < m ∧ b < a + 1 then ops.div (C.At a b) d
      else if b < m ∧ a < b then ops.div (C.At b a) d
      else C.At a b := by
  induction m generalizing a b with
  | zero => simp
  | succ m ih =>
    rw [List.range_succ, List.foldl_append, List.foldl_cons, List.foldl_nil, covScaleRow_At,
      ih a b]
    have h1 : ∀ c, c < m + 1 → ((List.range m).foldl (covScaleRow ops d) C).At m c =
        C.At m c := by
      intro c hc
      rw [ih m c, if_neg (by omega), if_neg (by omega)]
    split_ifs with h2 h3 h4 h5 h6 h7 h8 h9 <;>
      first
      | rfl
      | (exfalso; omega)
      | (rw [h1 b (by omega)]; congr 2; omega)
      | (rw [h1 a (by omega)]; congr 2; omega)

theorem covScaleRow_dims (ops : FloatOps F) (d : F) (C : Matrix F) (j : Nat) :
    (covScaleRow ops d C j).rows = C.rows ∧ (covScaleRow ops d C j).cols = C.cols := by
  unfold covScaleRow
  apply foldl_invariant (fun M : Matrix F => M.rows = C.rows ∧ M.cols = C.cols)
  · exact ⟨rfl, rfl⟩
  · intro M l _ hM
    exact hM

/-- When the singularity loop does not panic, its matrix is the scaled and mirrored one. -/
theorem covScale_eq_some (ops : FloatOps F) (d tol2 : F) (js : List Nat) (C C2 : Matrix F)
    (h : covScale ops d tol2 js C = some C2) : C2 = js.foldl (covScaleRow ops d) C := by
  induction js generalizing C with
  | nil =>
    rw [covScale] at h
    exact (Option.some.inj h).symm
  | cons j js ih =>
    rw [covScale] at h
    split at h
    · cases h
    · rw [List.foldl_cons]
      exact ih _ h

/-- The matrix handed to `Factorize`: for features `a, b < p` its entry `(a, b)` is the
formula of the specification, in both triangles. -/
theorem pooledCov_spec (ops : FloatOps F) (x : Matrix F) (k : Nat) (C2 : Matrix F)
    (h : pooledCov ops x k = some C2) :
    C2.rows = x.cols ∧ C2.cols = x.cols ∧
    ∀ a < x.cols, ∀ b < x.cols, C2.At a b = specCov ops x k a b := by
  have hC2 := covScale_eq_some ops _ _ _ _ _ h
  subst hC2
  have hsc : ∀ a < x.cols, ∀ b < a + 1,
      ops.div ((scatter ops x).At a b) (ops.ofInt ((x.rows : Int) - k)) =
        specCov ops x k a b := by
    intro a ha b hb
    have hb2 : b < x.cols := by omega
    rw [scatter, covAccum_At, if_pos ⟨ha, hb⟩, colmean_getD ops x a ha,
      colmean_getD ops x b hb2]
    rfl
  refine ⟨?_, ?_, ?_⟩
  · have : ∀ js : List Nat, (js.foldl (covScaleRow ops (ops.ofInt ((x.rows : Int) - k)))
        (scatter ops x)).rows = (scatter ops x).rows := by
      intro js
      apply foldl_invariant (fun M : Matrix F => M.rows = (scatter ops x).rows)
      · rfl
      · intro M j _ hM
        exact (covScaleRow_dims ops _ M j).1.trans hM
    rw [this]
    exact (covAccum_dims ops x _ _ _ _).1
  · have : ∀ js : List Nat, (js.foldl (covScaleRow ops (ops.ofInt ((x.rows : Int) - k)))
        (scatter ops x)).cols = (scatter ops x).cols := by
      intro js
      apply foldl_invariant (fun M : Matrix F => M.cols = (scatter ops x).cols)
      · rfl
      · intro M j _ hM
        exact (covScaleRow_dims ops _ M j).2.trans hM
    rw [this]
    exact (covAccum_dims ops x _ _ _ _).2
  · intro a ha b hb
    rw [covScaleRows_At]
    by_cases hab : b < a + 1
    · rw [if_pos ⟨ha, hab⟩]
      exact hsc a ha b hab
    · rw [if_neg (fun hh => hab hh.2), if_pos ⟨hb, by omega⟩, hsc b hb a (by omega)]
      unfold specCov
      congr 2
      funext s i
      rw [ops.mul_comm]

theorem specCov_symm (ops : FloatOps F) (x : Matrix F) (k a b : Nat) :
    specCov ops x k a b = specCov ops x k b a := by
  unfold specCov
  congr 2
  funext s i
  rw [ops.mul_comm]

/-- In exact arithmetic dividing a finite sum by a non-zero `d` is multiplying it by `1/d`. -/
theorem XReal.div_eq_inv_mul (s d : ℚ) (hd : d ≠ 0) :
    XReal.div (.fin s) (.fin d) = XReal.mul (XReal.div (.fin 1) (.fin d)) (.fin s) := by
  rw [XReal.div_fin _ _ hd, XReal.div_fin _ _ hd, XReal.mul_fin]
  congr 1
  field_simp

/-- C14: for valid labels (`len(y) = n`, labels exactly `0, …, k-1`, `k ≥ 2`, `n > k`) on
which `LinearDiscriminant` returns, the `p×p` matrix `C` handed to the eigen-solver has, for
all features `j` and `l` in both triangles, the entry
`(Σ_i (x[i,j] − mean_j)·(x[i,l] − mean_l)) / (n − k)` with `mean_j` the mean of column `j`
over all rows, the sum taken in row order and divided once; `C` is symmetric. -/
theorem pooled_covariance (ops : FloatOps F) (solver : EigenSolver F) (ld : LD F)
    (x : Matrix F) (y : List Int) (k : Nat) (hlen : y.length = x.rows)
    (hlab : ∀ v : Int, v ∈ y ↔ 0 ≤ v ∧ v < k) (hk : 2 ≤ k) (hn : k < x.rows)
    (hok : (LinearDiscriminant ops solver ld x (some y)).2 = .ok true) :
    ∃ C, pooledCov ops x k = some C ∧
      (∀ s : EigenSolver F, (LinearDiscriminant ops s ld x (some y)).1.eigen = s C) ∧
      C.rows = x.cols ∧ C.cols = x.cols ∧
      ∀ j < x.cols, ∀ l < x.cols, C.At j l = specCov ops x k j l ∧ C.At j l = C.At l j := by
  rw [LinearDiscriminant_eq_of_valid ops solver ld x y k hlen hlab hk hn] at hok
  cases hp : pooledCov ops x k with
  | none =>
    rw [hp] at hok
    cases hok
  | some C =>
    obtain ⟨h1, h2, h3⟩ := pooledCov_spec ops x k C hp
    refine ⟨C, rfl, ?_, h1, h2, ?_⟩
    · intro s
      rw [LinearDiscriminant_eq_of_valid ops s ld x y k hlen hlab hk hn, hp]
    · intro j hj l hl
      refine ⟨h3 j hj l hl, ?_⟩
      rw [h3 j hj l hl, h3 l hl j hj]
      exact specCov_symm ops x k j l

theorem balancedY_labels (v : Int) : v ∈ balancedY ↔ 0 ≤ v ∧ v < (2 : Nat) := by
  simp only [balancedY, List.mem_cons, List.mem_singleton, List.not_mem_nil, or_false]
  omega

unseal Rat.add Rat.sub Rat.mul Rat.inv in
/-- C14 on `twoFeatureX`, `balancedY`: the entries are `10`, `12`, `12`, `19`. -/
theorem pooled_covariance_witness :
    specCov exactArith twoFeatureX 2 0 0 = .fin 10 ∧
    specCov exactArith twoFeatureX 2 1 0 = .fin 12 ∧
    specCov exactArith twoFeatureX 2 0 1 = .fin 12 ∧
    specCov exactArith twoFeatureX 2 1 1 = .fin 19 ∧
    ∃ C, pooledCov exactArith twoFeatureX 2 = some C ∧
      (∀ s : EigenSolver XReal,
        (LinearDiscriminant exactArith s LD.zero twoFeatureX (some balancedY)).1.eigen =
          s C) ∧
      C.rows = twoFeatureX.cols ∧ C.cols = twoFeatureX.cols ∧
      ∀ j < twoFeatureX.cols, ∀ l < twoFeatureX.cols,
        C.At j l = specCov exactArith twoFeatureX 2 j l ∧ C.At j l = C.At l j :=
  ⟨by decide, by decide, by decide, by decide,
    pooled_covariance exactArith failingSolver LD.zero twoFeatureX balancedY 2 (by decide)
      balancedY_labels (by decide) (by decide) (by decide)⟩

/-! ## The loop of `Predict` (C17, C19) -/

/-- One pass of lines 200–203: the best class so far is replaced only by a class with a
strictly greater score. -/
theorem predictLoop_eq_foldl (ops : FloatOps F) (ld : LD F) (x : List F) (e : EigenResult F)
    (he : ld.eigen = some e) (hev : e.values.length = ld.p)
    (hmu : ld.p = 0 ∨ ∃ mu, ld.mu = some mu ∧ ld.k ≤ mu.rows ∧ ld.p ≤ mu.cols)
    (hct : ld.k ≤ ld.ct.length) (cls : List Nat) (hcls : ∀ i ∈ cls, i < ld.k) (st : Nat × F) :
    predictLoop ops ld x cls st =
      .ok (cls.foldl (fun st i =>
        if ops.lt st.2 (classScore ops ld e.values i) then (i, classScore ops ld e.values i)
        else st) st) := by
  induction cls generalizing st with
  | nil => rfl
  | cons i is ih =>
    have hi : i < ld.k := hcls i (List.mem_cons_self i is)
    have hdev : ∃ d, deviation ops ld x i = .ok d := by
      unfold deviation
      by_cases hp : ld.p = 0
      · rw [if_pos hp]
        exact ⟨_, rfl⟩
      · rcases hmu with h | ⟨mu, h1, h2, h3⟩
        · exact absurd h hp
        · rw [if_neg hp, h1]
          simp only [if_pos (And.intro (Nat.lt_of_lt_of_le hi h2) h3)]
          exact ⟨_, rfl⟩
    obtain ⟨d, hd⟩ := hdev
    have hval : eigenValues ld = .ok e.values := by
      unfold eigenValues
      rw [he]
      simp [hev]
    have hcti : ld.ct[i]? = some (ld.ct.getD i ops.zero) := by
      have : i < ld.ct.length := Nat.lt_of_lt_of_le hi hct
      rw [List.getD_eq_getElem?_getD, List.getElem?_eq_getElem this]
      rfl
    have ih2 := fun st => ih (fun j hj => hcls j (List.mem_cons_of_mem i hj)) st
    rw [predictLoop, hd]
    simp only [hval, hcti, List.foldl_cons]
    have hs : ops.sub (ld.ct.getD i ops.zero) (ops.mul ops.half
        (quadTerm ops ld.p (List.replicate ld.p ops.zero) e.values)) =
        classScore ops ld e.values i := rfl
    rw [hs]
    by_cases hlt : ops.lt st.2 (classScore ops ld e.values i) = true
    · rw [if_pos hlt, if_pos hlt, ih2]
    · rw [if_neg hlt, if_neg hlt, ih2]

/-- On a model holding what the loop reads, `Predict` returns the class left by the scan. -/
theorem Predict_eq_foldl (ops : FloatOps F) (ld : LD F) (x : List F) (e : EigenResult F)
    (hlen : x.length = ld.p) (he : ld.eigen = some e) (hev : e.values.length = ld.p)
    (hmu : ld.p = 0 ∨ ∃ mu, ld.mu = some mu ∧ ld.k ≤ mu.rows ∧ ld.p ≤ mu.cols)
    (hct : ld.k ≤ ld.ct.length) :
    Predict ops ld x =
      .ok ((List.range ld.k).foldl (fun st i =>
        if ops.lt st.2 (classScore ops ld e.values i) then (i, classScore ops ld e.values i)
        else st) (0, ops.negInf)).1 := by
  unfold Predict
  rw [if_neg (by simpa using hlen),
    predictLoop_eq_foldl ops ld x e he hev hmu hct _ (fun i hi => List.mem_range.mp hi)]
  rfl

/-- The scan of lines 185–204 over the first `m` classes, for scores `s` that, together with
the start value `bot`, are ordered by `lt` transitively and with transitive
incomparability: either nothing exceeded `bot` and class 0 is kept, or the state is a class
whose score no scanned score exceeds and which every earlier class is strictly below. -/
theorem scan_invariant (lt : F → F → Bool) (bot : F) (s : Nat → F) (k : Nat)
    (hirr : ∀ a, lt a a = false)
    (htrans : ∀ a ∈ bot :: (List.range k).map s, ∀ b ∈ bot :: (List.range k).map s,
      ∀ c ∈ bot :: (List.range k).map s, lt a b = true → lt b c = true → lt a c = true)
    (hneg : ∀ a ∈ bot :: (List.range k).map s, ∀ b ∈ bot :: (List.range k).map s,
      ∀ c ∈ bot :: (List.range k).map s, lt a b = false → lt b c = false → lt a c = false)
    (m : Nat) (hm : m ≤ k) :
    ((List.range m).foldl (fun st i => if lt st.2 (s i) then (i, s i) else st) (0, bot) =
        (0, bot) ∧ ∀ i < m, lt bot (s i) = false) ∨
    (((List.range m).foldl (fun st i => if lt st.2 (s i) then (i, s i) else st) (0, bot)).1
        < m ∧
      ((List.range m).foldl (fun st i => if lt st.2 (s i) then (i, s i) else st) (0, bot)).2 =
        s ((List.range m).foldl (fun st i => if lt st.2 (s i) then (i, s i) else st)
          (0, bot)).1 ∧
      (∀ i < m, lt (s ((List.range m).foldl (fun st i => if lt st.2 (s i) then (i, s i)
        else st) (0, bot)).1) (s i) = false) ∧
      (∀ i < ((List.range m).foldl (fun st i => if lt st.2 (s i) then (i, s i) else st)
        (0, bot)).1, lt (s i) (s ((List.range m).foldl (fun st i => if lt st.2 (s i) then
          (i, s i) else st) (0, bot)).1) = true)) := by
  have hbotS : bot ∈ bot :: (List.range k).map s := List.mem_cons_self _ _
  have hsS : ∀ i < k, s i ∈ bot :: (List.range k).map s := fun i hi =>
    List.mem_cons_of_mem _ (List.mem_map.mpr ⟨i, List.mem_range.mpr hi, rfl⟩)
  induction m with
  | zero =>
    left
    exact ⟨rfl, fun i hi => absurd hi (Nat.not_lt_zero i)⟩
  | succ m ih =>
    have hmk : m < k := hm
    rw [List.range_succ, List.foldl_append, List.foldl_cons, List.foldl_nil]
    generalize (List.range m).foldl (fun st i => if lt st.2 (s i) then (i, s i) else st)
      (0, bot) = st at ih ⊢
    rcases ih (by omega) with ⟨hst, hA⟩ | ⟨hlt, hval, hmax, hlow⟩
    · subst hst
      by_cases hc : lt bot (s m) = true
      · right
        simp only [hc, if_true]
        refine ⟨Nat.lt_succ_self m, trivial, ?_, ?_⟩
        · intro i hi
          rcases Nat.lt_succ_iff_lt_or_eq.mp hi with h | h
          · cases hlt2 : lt (s m) (s i) with
            | false => rfl
            | true =>
              have := htrans bot hbotS (s m) (hsS m hmk) (s i) (hsS i (by omega)) hc hlt2
              rw [hA i h] at this
              cases this
          · rw [h]
            exact hirr _
        · intro i hi
          cases hlt2 : lt (s i) (s m) with
          | true => rfl
          | false =>
            have := hneg bot hbotS (s i) (hsS i (by omega)) (s m) (hsS m hmk) (hA i hi) hlt2
            rw [hc] at this
            cases this
      · left
        have hc2 : lt bot (s m) = false := by simpa using hc
        simp only [hc2, Bool.false_eq_true, if_false, true_and]
        intro i hi
        rcases Nat.lt_succ_iff_lt_or_eq.mp hi with h | h
        · exact hA i h
        · rw [h]
          exact hc2
    · right
      have hyk : st.1 < k := by omega
      by_cases hc : lt st.2 (s m) = true
      · simp only [hc, if_true]
        rw [hval] at hc
        refine ⟨Nat.lt_succ_self m, trivial, ?_, ?_⟩
        · intro i hi
          rcases Nat.lt_succ_iff_lt_or_eq.mp hi with h | h
          · cases hlt2 : lt (s m) (s i) with
            | false => rfl
            | true =>
              have := htrans (s st.1) (hsS _ hyk) (s m) (hsS m hmk) (s i) (hsS i (by omega))
                hc hlt2
              rw [hmax i h] at this
              cases this
          · rw [h]
            exact hirr _
        · intro i hi
          cases hlt2 : lt (s i) (s m) with
          | true => rfl
          | false =>
            have := hneg (s st.1) (hsS _ hyk) (s i) (hsS i (by omega)) (s m) (hsS m hmk)
              (hmax i hi) hlt2
            rw [hc] at this
            cases this
      · have hc2 : lt st.2 (s m) = false := by simpa using hc
        simp only [hc2, Bool.false_eq_true, if_false]
        refine ⟨by omega, hval, ?_, hlow⟩
        intro i hi
        rcases Nat.lt_succ_iff_lt_or_eq.mp hi with h | h
        · exact hmax i h
        · rw [h, ← hval]
          exact hc2

/-- C17 (amended): on a model with `k ≥ 1` that holds what the loop reads (a factorization
with `p` eigenvalues, class means covering `k×p` unless `p = 0`, at least `k` constant
terms), for an input of length `p` and scores that `<` orders together with `-Inf` as it
orders real numbers (transitively, with transitive incomparability, nothing below `-Inf`),
`Predict` returns a class `y` in `[0, k)` whose score no score exceeds and which every
earlier class is strictly below: the lowest index of a maximal score, class 0 when its
score equals the returned one. -/
theorem Predict_lowest_maximal (ops : FloatOps F) (ld : LD F) (x : List F) (e : EigenResult F)
    (hlen : x.length = ld.p) (hk : 1 ≤ ld.k) (he : ld.eigen = some e)
    (hev : e.values.length = ld.p)
    (hmu : ld.p = 0 ∨ ∃ mu, ld.mu = some mu ∧ ld.k ≤ mu.rows ∧ ld.p ≤ mu.cols)
    (hct : ld.k ≤ ld.ct.length)
    (htrans : ∀ a ∈ ops.negInf :: (List.range ld.k).map (classScore ops ld e.values),
      ∀ b ∈ ops.negInf :: (List.range ld.k).map (classScore ops ld e.values),
      ∀ c ∈ ops.negInf :: (List.range ld.k).map (classScore ops ld e.values),
      ops.lt a b = true → ops.lt b c = true → ops.lt a c = true)
    (hneg : ∀ a ∈ ops.negInf :: (List.range ld.k).map (classScore ops ld e.values),
      ∀ b ∈ ops.negInf :: (List.range ld.k).map (classScore ops ld e.values),
      ∀ c ∈ ops.negInf :: (List.range ld.k).map (classScore ops ld e.values),
      ops.lt a b = false → ops.lt b c = false → ops.lt a c = false)
    (hbot : ∀ a ∈ ops.negInf :: (List.range ld.k).map (classScore ops ld e.values),
      ops.lt a ops.negInf = false) :
    ∃ y, Predict ops ld x = .ok y ∧ y < ld.k ∧
      (∀ i < ld.k,
        ops.lt (classScore ops ld e.values y) (classScore ops ld e.values i) = false) ∧
      (∀ i < y,
        ops.lt (classScore ops ld e.values i) (classScore ops ld e.values y) = true) ∧
      (classScore ops ld e.values 0 = classScore ops ld e.values y → y = 0) := by
  have hP := Predict_eq_foldl ops ld x e hlen he hev hmu hct
  have hinv := scan_invariant ops.lt ops.negInf (classScore ops ld e.values) ld.k
    ops.lt_irrefl htrans hneg ld.k (le_refl _)
  have hsS : ∀ i < ld.k, classScore ops ld e.values i ∈
      ops.negInf :: (List.range ld.k).map (classScore ops ld e.values) := fun i hi =>
    List.mem_cons_of_mem _ (List.mem_map.mpr ⟨i, List.mem_range.mpr hi, rfl⟩)
  refine ⟨_, hP, ?_⟩
  generalize (List.range ld.k).foldl (fun st i =>
      if ops.lt st.2 (classScore ops ld e.values i) then (i, classScore ops ld e.values i)
      else st) (0, ops.negInf) = st at hinv ⊢
  have hzero : ∀ y : Nat, (∀ i < y, ops.lt (classScore ops ld e.values i)
      (classScore ops ld e.values y) = true) →
      classScore ops ld e.values 0 = classScore ops ld e.values y → y = 0 := by
    intro y hlow heq
    by_contra hy
    have := hlow 0 (Nat.pos_of_ne_zero hy)
    rw [heq, ops.lt_irrefl] at this
    cases this
  rcases hinv with ⟨hst, hA⟩ | ⟨hlt, _, hmax, hlow⟩
  · subst hst
    refine ⟨hk, ?_, fun i hi => absurd hi (Nat.not_lt_zero i), fun _ => rfl⟩
    intro i hi
    exact hneg _ (hsS 0 hk) _ (List.mem_cons_self _ _) _ (hsS i hi)
      (hbot _ (hsS 0 hk)) (hA i hi)
  · exact ⟨hlt, hmax, hlow, hzero _ hlow⟩

unseal Rat.add Rat.sub Rat.mul Rat.inv in
/-- C17 (amended) on `threeClassModel`, whose scores are `0, 1, 1`: the result is class 1. -/
theorem Predict_lowest_maximal_witness :
    Predict exactArith threeClassModel [.fin 4] = .ok 1 ∧
    ∃ y, Predict exactArith threeClassModel [.fin 4] = .ok y ∧ y < threeClassModel.k ∧
      (∀ i < threeClassModel.k,
        exactArith.lt (classScore exactArith threeClassModel [(.fin 10, .fin 0)] y)
          (classScore exactArith threeClassModel [(.fin 10, .fin 0)] i) = false) ∧
      (∀ i < y,
        exactArith.lt (classScore exactArith threeClassModel [(.fin 10, .fin 0)] i)
          (classScore exactArith threeClassModel [(.fin 10, .fin 0)] y) = true) ∧
      (classScore exactArith threeClassModel [(.fin 10, .fin 0)] 0 =
        classScore exactArith threeClassModel [(.fin 10, .fin 0)] y → y = 0) :=
  ⟨by decide,
    Predict_lowest_maximal exactArith threeClassModel [.fin 4]
      ⟨[(.fin 10, .fin 0)], ⟨1, 1, fun _ _ => .fin 1⟩⟩ (by decide) (by decide) rfl (by decide)
      (Or.inr ⟨_, rfl, by decide, by decide⟩) (by decide) (by decide) (by decide)
      (by decide)⟩

unseal Rat.add Rat.sub Rat.mul Rat.inv in
/-- C17 as stated fails: on a model state with `k = 1`, `p = 1` and nothing else `Predict`
panics on the nil `mu` for an input of length 1; and on `nanModel`, whose scores are
`NaN, 1, 1`, it returns class 1 although no score exceeds the score of class 0. -/
theorem Predict_not_total :
    Predict exactArith { (LD.zero : LD XReal) with k := 1, p := 1 } [.fin 0] =
      .error .nilDereference ∧
    Predict exactArith nanModel [.fin 4] = .ok 1 ∧
    (∀ i < nanModel.k,
      exactArith.lt (classScore exactArith nanModel [(.fin 10, .fin 0)] 0)
        (classScore exactArith nanModel [(.fin 10, .fin 0)] i) = false) := by
  decide

/-- With at least two classes every class has fewer rows than there are rows. -/
theorem classCounts_lt (ops : FloatOps F) (x : Matrix F) (y : List Int) (k : Nat)
    (hlen : y.length = x.rows) (hlab : ∀ v : Int, v ∈ y ↔ 0 ≤ v ∧ v < k) (hk : 2 ≤ k) :
    ∀ c ∈ classCounts ops x y k, c < x.rows := by
  obtain ⟨h1, _, h3, h4⟩ := classCounts_spec ops x y k hlen hlab
  intro c hc
  obtain ⟨i, hi, hci⟩ := List.getElem_of_mem hc
  rw [h1] at hi
  have hget : (classCounts ops x y k).getD i 0 = c := by
    rw [List.getD_eq_getElem?_getD, List.getElem?_eq_getElem (by rw [h1]; exact hi), hci]
    rfl
  rw [← hget, h3 i]
  obtain ⟨j, hj, hji⟩ : ∃ j, j < k ∧ j ≠ i := by
    by_cases h0 : i = 0
    · exact ⟨1, by omega, by omega⟩
    · exact ⟨0, by omega, fun h => h0 h.symm⟩
  have hpos := (h4 j hj).1
  obtain ⟨r, hr⟩ := List.exists_mem_of_length_pos hpos
  rw [rowsOf, List.mem_filter] at hr
  have hlt : (rowsOf y x.rows i).length < (List.range x.rows).length := by
    rw [rowsOf, List.length_filter_lt_length_iff_exists]
    refine ⟨r, hr.1, ?_⟩
    have h5 : y[r]? = some (j : Int) := by simpa using hr.2
    rw [h5]
    simp only [Option.some.injEq, decide_eq_true_eq]
    intro h6
    exact hji (by exact_mod_cast h6)
  simpa using hlt

/-- With at least two classes every stored constant term is `math.Log(float64(0))`. -/
theorem constantTerms_of_valid (ops : FloatOps F) (x : Matrix F) (y : List Int) (k : Nat)
    (hlen : y.length = x.rows) (hlab : ∀ v : Int, v ∈ y ↔ 0 ≤ v ∧ v < k) (hk : 2 ≤ k) :
    constantTerms ops (priori ops x.rows (classCounts ops x y k)) =
      List.replicate k (ops.log (ops.ofInt 0)) := by
  have hlt := classCounts_lt ops x y k hlen hlab hk
  have hl := (classCounts_spec ops x y k hlen hlab).1
  rw [List.eq_replicate_iff]
  constructor
  · simp [constantTerms, priori, hl]
  · intro b hb
    simp only [constantTerms, priori, List.mem_map, exists_exists_and_eq_and] at hb
    obtain ⟨c, hc, rfl⟩ := hb
    rw [Nat.div_eq_of_lt (hlt c hc)]
    rfl

/-- The scan of lines 185–204 over classes that all have the same score keeps class 0. -/
theorem scan_equal_scores (lt : F → F → Bool) (bot c : F) (s : Nat → F) (k : Nat)
    (hirr : ∀ a, lt a a = false) (hs : ∀ i < k, s i = c) (m : Nat) (hm : m ≤ k) :
    ((List.range m).foldl (fun st i => if lt st.2 (s i) then (i, s i) else st) (0, bot)).1 = 0 ∧
    ((((List.range m).foldl (fun st i => if lt st.2 (s i) then (i, s i) else st) (0, bot)).2 =
        bot ∧ (m = 0 ∨ lt bot c = false)) ∨
      ((List.range m).foldl (fun st i => if lt st.2 (s i) then (i, s i) else st) (0, bot)).2 =
        c) := by
  induction m with
  | zero => exact ⟨rfl, Or.inl ⟨rfl, Or.inl rfl⟩⟩
  | succ m ih =>
    rw [List.range_succ, List.foldl_append, List.foldl_cons, List.foldl_nil, hs m hm]
    generalize (List.range m).foldl (fun st i => if lt st.2 (s i) then (i, s i) else st)
      (0, bot) = st at ih ⊢
    obtain ⟨a, v⟩ := st
    obtain ⟨h1, h2⟩ := ih (by omega)
    simp only at h1 h2 ⊢
    subst h1
    rcases h2 with ⟨h3, h4⟩ | h3
    · subst h3
      by_cases hc : lt v c = true
      · rcases h4 with h5 | h5
        · subst h5
          rw [if_pos hc]
          exact ⟨rfl, Or.inr rfl⟩
        · rw [h5] at hc
          cases hc
      · have hc2 : lt v c = false := by simpa using hc
        rw [if_neg hc]
        exact ⟨rfl, Or.inl ⟨rfl, Or.inr hc2⟩⟩
    · subst h3
      rw [if_neg (by simp [hirr v])]
      exact ⟨rfl, Or.inr rfl⟩

/-- Labels that pass the checks are exactly the class indices. -/
theorem labels_iff_of_checked (y : List Int) (rest : List Int)
    (hl : sortInts (uniqueLabels y) = 0 :: rest) (hc : checkLabels (0 :: rest) = none) :
    ∀ v : Int, v ∈ y ↔ 0 ≤ v ∧ v < ((rest.length + 1 : Nat) : Int) := by
  intro v
  rw [← mem_sortedLabels y v, labels_eq_range y rest hl hc, List.mem_map]
  constructor
  · rintro ⟨i, hi, rfl⟩
    have := List.mem_range.mp hi
    exact ⟨by omega, by omega⟩
  · rintro ⟨h1, h2⟩
    exact ⟨v.toNat, List.mem_range.mpr (by omega), by omega⟩

/-! ## `LinearDiscriminant` when `Factorize` may not return -/

/-- With a factorization that always returns, the call is the one of `LinearDiscriminant`. -/
theorem estimateRun_of_returns (ops : FloatOps F) (solver : EigenSolver F) (ld : LD F)
    (x : Matrix F) (ys : List Int) :
    estimateRun ops (fun C => some (solver C)) ld x ys = some (estimate ops solver ld x ys) := by
  unfold estimateRun estimate
  split
  · rfl
  · dsimp only
    split <;> rfl

/-- With a factorization that always returns, the call is the one of `LinearDiscriminant`. -/
theorem LinearDiscriminantRun_of_returns (ops : FloatOps F) (solver : EigenSolver F)
    (ld : LD F) (x : Matrix F) (y : Option (List Int)) :
    LinearDiscriminantRun ops (fun C => some (solver C)) ld x y =
      some (LinearDiscriminant ops solver ld x y) := by
  unfold LinearDiscriminantRun LinearDiscriminant
  dsimp only
  split
  · rfl
  · split
    · rfl
    · split
      · rfl
      · split
        · rfl
        · split
          · rfl
          · split
            · rfl
            · split
              · rfl
              · exact estimateRun_of_returns ops solver _ x _

/-- The estimation stage on labels that are class indices, with a factorization that may
not return: the singularity loop decides, then the call returns `true` exactly when the
factorization of the scaled matrix returns. -/
theorem estimateRun_of_valid (ops : FloatOps F) (run : EigenRun F) (ld : LD F)
    (x : Matrix F) (ys : List Int) (hy : ∀ v ∈ ys, 0 ≤ v ∧ v.toNat < ld.k)
    (hlen : ys.length = ld.n) (hn : ld.n = x.rows) (hp : ld.p = x.cols) :
    estimateRun ops run ld x ys =
      match pooledCov ops x ld.k with
      | none =>
        some ({ ld with
            mu := some (divideByCounts ops ld.k ld.p (classCounts ops x ys ld.k)
              (classSums ops x ys ld.k)),
            ct := constantTerms ops (priori ops ld.n (classCounts ops x ys ld.k)) },
          .error .closeToSingular)
      | some C2 =>
        match run C2 with
        | none => none
        | some r =>
          some ({ ld with
              mu := some (divideByCounts ops ld.k ld.p (classCounts ops x ys ld.k)
                (classSums ops x ys ld.k)),
              ct := constantTerms ops (priori ops ld.n (classCounts ops x ys ld.k)),
              eigen := r },
            .ok true) := by
  have hs := sumRows_ok ops x ld.p ys ld.k hy (List.range ld.n)
    (fun i hi => hlen ▸ List.mem_range.mp hi) (List.replicate ld.k 0, NewDense ops ld.k ld.p)
    (by simp)
  unfold estimateRun
  split
  · rename_i acc e he
    rw [he] at hs
    exact absurd hs.1 (by simp)
  · rename_i acc he
    have h1 : classCounts ops x ys ld.k = acc.1 := by
      rw [classCounts, ← hn, ← hp, he]
    have h2 : classSums ops x ys ld.k = acc.2 := by
      rw [classSums, ← hn, ← hp, he]
    dsimp only
    rw [h1, h2, pooledCov, scatter, ← hn, ← hp]

/-- Once the checks of lines 41–90 have passed, the call is the estimation stage. -/
theorem LinearDiscriminantRun_validated (ops : FloatOps F) (run : EigenRun F) (ld : LD F)
    (x : Matrix F) (ys : List Int) (rest : List Int) (hlen : ys.length = x.rows)
    (hl : sortInts (uniqueLabels ys) = 0 :: rest) (hc : checkLabels (0 :: rest) = none)
    (hk : 2 ≤ rest.length + 1) (hn : rest.length + 1 < x.rows) :
    LinearDiscriminantRun ops run ld x (some ys) =
      estimateRun ops run { ld with n := x.rows, p := x.cols, k := rest.length + 1 } x ys := by
  unfold LinearDiscriminantRun
  simp only [Option.isSome_some, Option.getD_some, hlen, ne_eq, not_true_eq_false, and_false,
    if_false, hl, hc, List.length_cons, ops.tol_nonneg, Bool.false_eq_true]
  rw [if_neg (by omega), if_neg (by omega)]

/-- Valid labels: the call is the estimation stage. -/
theorem LinearDiscriminantRun_of_valid (ops : FloatOps F) (run : EigenRun F) (ld : LD F)
    (x : Matrix F) (y : List Int) (k : Nat) (hlen : y.length = x.rows)
    (hlab : ∀ v : Int, v ∈ y ↔ 0 ≤ v ∧ v < k) (hk : 2 ≤ k) (hn : k < x.rows) :
    LinearDiscriminantRun ops run ld x (some y) =
      estimateRun ops run { ld with n := x.rows, p := x.cols, k := k } x y := by
  have hl := sortedLabels_of_range y k hlab
  obtain ⟨k1, rfl⟩ : ∃ k1, k = k1 + 1 := ⟨k - 1, by omega⟩
  have hl2 : sortInts (uniqueLabels y) =
      0 :: (List.range k1).map (fun i : Nat => ((i + 1 : Nat) : Int)) := by
    rw [hl, List.range_succ_eq_map, List.map_cons, List.map_map]
    rfl
  have hc := checkLabels_range (k1 + 1)
  rw [← hl, hl2] at hc
  have hlen2 : ((List.range k1).map (fun i : Nat => ((i + 1 : Nat) : Int))).length = k1 := by
    simp
  have h := LinearDiscriminantRun_validated ops run ld x y _ hlen hl2 hc
    (by rw [hlen2]; exact hk) (by rw [hlen2]; exact hn)
  rw [hlen2] at h
  exact h

/-- No diagonal entry below `tol²`: the singularity loop ends with a matrix. -/
theorem pooledCov_isSome (ops : FloatOps F) (x : Matrix F) (k : Nat)
    (hcov : ∀ j < x.cols, ops.lt (ops.div ((scatter ops x).At j j)
      (ops.ofInt ((x.rows : Int) - k))) (ops.mul ops.tol ops.tol) = false) :
    ∃ C, pooledCov ops x k = some C := by
  cases h : pooledCov ops x k with
  | some C => exact ⟨C, rfl⟩
  | none =>
    exfalso
    obtain ⟨j, hj, hlt⟩ := (covScale_eq_none_iff ops (ops.ofInt ((x.rows : Int) - k))
      (ops.mul ops.tol ops.tol) (List.range x.cols) (List.nodup_range _) (scatter ops x)).mp h
    rw [hcov j (List.mem_range.mp hj)] at hlt
    cases hlt

/-- C4 (amended): with `len(y) = n`, labels forming exactly `0, …, k-1`, `k ≥ 2`, `n > k`,
and no diagonal entry of the scaled scatter matrix below `tol²`, `LinearDiscriminant` passes
every check and hands the scaled matrix `C` to `Factorize`; when that call returns,
whatever it leaves, `LinearDiscriminant` returns `true` and does not panic, and when it
does not return, neither does `LinearDiscriminant`. -/
theorem LinearDiscriminant_returns_true (ops : FloatOps F) (run : EigenRun F) (ld : LD F)
    (x : Matrix F) (y : List Int) (k : Nat) (hlen : y.length = x.rows)
    (hlab : ∀ v : Int, v ∈ y ↔ 0 ≤ v ∧ v < k) (hk : 2 ≤ k) (hn : k < x.rows)
    (hcov : ∀ j < x.cols, ops.lt (ops.div ((scatter ops x).At j j)
      (ops.ofInt ((x.rows : Int) - k))) (ops.mul ops.tol ops.tol) = false) :
    ∃ C, pooledCov ops x k = some C ∧
      (∀ r, run C = some r →
        ∃ ld1, LinearDiscriminantRun ops run ld x (some y) = some (ld1, .ok true) ∧
          ld1.eigen = r) ∧
      (run C = none → LinearDiscriminantRun ops run ld x (some y) = none) := by
  obtain ⟨C, hC⟩ := pooledCov_isSome ops x k hcov
  have hy : ∀ v ∈ y, 0 ≤ v ∧ v.toNat < k := by
    intro v hv
    have := (hlab v).mp hv
    exact ⟨this.1, by omega⟩
  have hrun := LinearDiscriminantRun_of_valid ops run ld x y k hlen hlab hk hn
  rw [estimateRun_of_valid ops run _ x y hy hlen rfl rfl] at hrun
  simp only [hC] at hrun
  refine ⟨C, hC, ?_, ?_⟩
  · intro r hr
    rw [hr] at hrun
    exact ⟨_, hrun, rfl⟩
  · intro hr
    rw [hr] at hrun
    exact hrun

set_option maxRecDepth 8000 in
unseal Rat.add Rat.sub Rat.mul Rat.inv in
/-- C4 (amended) on `trainX`, `trainY` in `float64` arithmetic: the scaled variance of the
single feature is 8, the factorization of `(8)` returns, and the call returns `true`. -/
theorem LinearDiscriminant_returns_true_witness :
    trainY.length = trainX.rows ∧ 2 < trainX.rows ∧
    ∃ C, pooledCov float64Arith trainX 2 = some C ∧ C.toLists = [[.fin 8]] ∧
      ∃ ld1, LinearDiscriminantRun float64Arith (fun M => some (solver1x1 float64Arith M))
          LD.zero trainX (some trainY) = some (ld1, .ok true) ∧
        ld1.eigen = solver1x1 float64Arith C := by
  obtain ⟨C, hC, h1, _⟩ := LinearDiscriminant_returns_true float64Arith
    (fun M => some (solver1x1 float64Arith M)) LD.zero trainX trainY 2 (by decide)
    trainY_labels (by decide) (by decide) (by decide)
  refine ⟨by decide, by decide, C, hC, ?_, h1 _ rfl⟩
  have h2 : (pooledCov float64Arith trainX 2).map Matrix.toLists = some [[.fin 8]] := by
    decide
  rw [hC] at h2
  simpa using h2

set_option maxRecDepth 8000 in
unseal Rat.add Rat.sub Rat.mul Rat.inv in
/-- C4 as stated fails: `constX` with `trainY` has three rows, the two classes 0 and 1, and
every label in range, yet the call panics on the constant second feature, in exact and in
`float64` arithmetic. -/
theorem LinearDiscriminant_valid_labels_may_fail :
    trainY.length = constX.rows ∧ sortInts (uniqueLabels trainY) = [0, 1] ∧
    2 < constX.rows ∧
    (LinearDiscriminant exactArith failingSolver LD.zero constX (some trainY)).2 =
      .error .closeToSingular ∧
    (LinearDiscriminant float64Arith (solver1x1 float64Arith) LD.zero constX (some trainY)).2 =
      .error .closeToSingular := by
  decide

set_option maxRecDepth 8000 in
unseal Rat.add Rat.sub Rat.mul Rat.inv in
/-- A `NaN` in the data passes every check: `nanX` with `trainY` has valid labels, the
scaled variance is `NaN`, which is not below `tol²`, and the matrix `(NaN)` is handed to
`Factorize`. -/
theorem nanX_reaches_Factorize :
    trainY.length = nanX.rows ∧ sortInts (uniqueLabels trainY) = [0, 1] ∧ 2 < nanX.rows ∧
    (pooledCov float64Arith nanX 2).map Matrix.toLists = some [[.nan]] := by
  decide

/-! ## The singularity check and constant columns -/

set_option maxRecDepth 8000 in
unseal Rat.add Rat.sub Rat.mul Rat.inv in
/-- The tolerance of the `float64` arithmetic is the rounded `1E-4`, and its square, as
computed on line 146, is the `float64` nearest to the exact square. -/
theorem float64Arith_tol :
    float64Arith.tol = roundQ (1 / 10000) ∧
    float64Arith.mul float64Arith.tol float64Arith.tol =
      roundQ ((7378697629483821 / 73786976294838206464) ^ 2) := by
  decide

/-- A column that is constant, with a computed mean equal to that constant, has scatter
zero with itself, provided `c - c`, `0 * 0` and `0 + 0` are computed as zero. -/
theorem scatter_of_const (ops : FloatOps F) (x : Matrix F) (j : Nat) (c : F)
    (hj : j < x.cols) (hc : ∀ i < x.rows, x.At i j = c) (hm : specGlobalMean ops x j = c)
    (hsub : ops.sub c c = ops.zero) (hmul : ops.mul ops.zero ops.zero = ops.zero)
    (hadd : ops.add ops.zero ops.zero = ops.zero) :
    (scatter ops x).At j j = ops.zero := by
  unfold scatter
  rw [covAccum_At, if_pos ⟨hj, by omega⟩, colmean_getD ops x j hj, hm]
  apply foldl_invariant (fun s : F => s = ops.zero)
  · rfl
  · intro s i hi hs
    rw [hs, hc i (List.mem_range.mp hi), hsub, hmul, hadd]

/-- In `float64` arithmetic `c - c` is zero for every finite `c`, and so are `0 * 0` and
`0 + 0`. -/
theorem float64Ops_zero_laws (logQ : ℚ → ℚ) (hypotQ : ℚ → ℚ → ℚ) (c : ℚ) :
    (float64Ops logQ hypotQ).sub (.fin c) (.fin c) = (float64Ops logQ hypotQ).zero ∧
    (float64Ops logQ hypotQ).mul (float64Ops logQ hypotQ).zero (float64Ops logQ hypotQ).zero =
      (float64Ops logQ hypotQ).zero ∧
    (float64Ops logQ hypotQ).add (float64Ops logQ hypotQ).zero (float64Ops logQ hypotQ).zero =
      (float64Ops logQ hypotQ).zero := by
  refine ⟨?_, ?_, ?_⟩
  · simp [float64Ops, XReal.sub, XReal.neg, XReal.add, roundX, roundQ]
  · simp [float64Ops, XReal.mul, roundX, roundQ]
  · simp [float64Ops, XReal.add, roundX, roundQ]

/-- C5 (amended): with valid labels (`len(y) = n`, labels exactly `0, …, k-1`, `k ≥ 2`,
`n > k`), `LinearDiscriminant` panics with "Covarience matrix … is close to singular"
whenever some diagonal entry of the scaled scatter matrix, as computed, is below `tol²`;
this is the case for a constant column whose computed mean is the constant itself (then
every deviation `c - c` is zero, and `0 * 0`, `0 + 0` and `0 / (n-k)` are zero, below
`tol²`), whatever the other columns hold. -/
theorem LinearDiscriminant_close_to_singular (ops : FloatOps F) (solver : EigenSolver F)
    (ld : LD F) (x : Matrix F) (y : List Int) (k : Nat) (hlen : y.length = x.rows)
    (hlab : ∀ v : Int, v ∈ y ↔ 0 ≤ v ∧ v < k) (hk : 2 ≤ k) (hn : k < x.rows) :
    ((∃ j < x.cols, ops.lt (ops.div ((scatter ops x).At j j)
        (ops.ofInt ((x.rows : Int) - k))) (ops.mul ops.tol ops.tol) = true) →
      (LinearDiscriminant ops solver ld x (some y)).2 = .error .closeToSingular) ∧
    (∀ j < x.cols, ∀ c : F, (∀ i < x.rows, x.At i j = c) → specGlobalMean ops x j = c →
      ops.sub c c = ops.zero → ops.mul ops.zero ops.zero = ops.zero →
      ops.add ops.zero ops.zero = ops.zero →
      ops.lt (ops.div ops.zero (ops.ofInt ((x.rows : Int) - k)))
        (ops.mul ops.tol ops.tol) = true →
      (LinearDiscriminant ops solver ld x (some y)).2 = .error .closeToSingular) := by
  have part1 : (∃ j < x.cols, ops.lt (ops.div ((scatter ops x).At j j)
        (ops.ofInt ((x.rows : Int) - k))) (ops.mul ops.tol ops.tol) = true) →
      (LinearDiscriminant ops solver ld x (some y)).2 = .error .closeToSingular := by
    intro hex
    obtain ⟨h1, h2⟩ := LinearDiscriminant_of_valid ops solver ld x y k hlen hlab hk hn
    rw [h1]
    exact (estimate_outcome ops solver _ x y h2 hlen rfl rfl).1.mpr hex
  refine ⟨part1, ?_⟩
  intro j hj c hc hm hsub hmul hadd hlt
  apply part1
  refine ⟨j, hj, ?_⟩
  rw [scatter_of_const ops x j c hj hc hm hsub hmul hadd]
  exact hlt

set_option maxRecDepth 8000 in
unseal Rat.add Rat.sub Rat.mul Rat.inv in
/-- C5 (amended) on `constX` in `float64` arithmetic: the second feature is the constant 7,
its computed mean `21 / 3` is 7, and the call panics by either part. -/
theorem LinearDiscriminant_close_to_singular_witness :
    trainY.length = constX.rows ∧ 2 < constX.rows ∧
    (∀ i < constX.rows, constX.At i 1 = .fin 7) ∧
    specGlobalMean float64Arith constX 1 = .fin 7 ∧
    (LinearDiscriminant float64Arith (solver1x1 float64Arith) LD.zero constX (some trainY)).2 =
      .error .closeToSingular ∧
    (LinearDiscriminant float64Arith (solver1x1 float64Arith) LD.zero constX (some trainY)).2 =
      .error .closeToSingular :=
  ⟨by decide, by decide, by decide, by decide,
    (LinearDiscriminant_close_to_singular float64Arith (solver1x1 float64Arith) LD.zero constX
      trainY 2 (by decide) trainY_labels (by decide) (by decide)).1
      ⟨1, by decide, by decide⟩,
    (LinearDiscriminant_close_to_singular float64Arith (solver1x1 float64Arith) LD.zero constX
      trainY 2 (by decide) trainY_labels (by decide) (by decide)).2 1 (by decide) (.fin 7)
      (by decide) (by decide) (by decide) (by decide) (by decide) (by decide)⟩

set_option maxRecDepth 8000 in
unseal Rat.add Rat.sub Rat.mul Rat.inv in
/-- C5 as stated fails in `float64` arithmetic: `bigConstX` with `trainY` has valid labels
and its only feature is the constant `1000000000000000.25`, yet the call returns `true`.
The sum of the column rounds to `3000000000000001`, the mean to `1000000000000000.375`,
every deviation is `-0.125`, and the scaled diagonal entry is `3/64 = 0.046875`, which is
not below `tol²`. -/
theorem LinearDiscriminant_constant_column_may_pass :
    trainY.length = bigConstX.rows ∧ sortInts (uniqueLabels trainY) = [0, 1] ∧
    2 < bigConstX.rows ∧
    (∀ i < bigConstX.rows, bigConstX.At i 0 = .fin (4000000000000001 / 4)) ∧
    specGlobalMean float64Arith bigConstX 0 = .fin (8000000000000003 / 8) ∧
    (pooledCov float64Arith bigConstX 2).map Matrix.toLists = some [[.fin (3 / 64)]] ∧
    float64Arith.lt (.fin (3 / 64)) (float64Arith.mul float64Arith.tol float64Arith.tol) =
      false ∧
    (LinearDiscriminant float64Arith (solver1x1 float64Arith) LD.zero bigConstX
      (some trainY)).2 = .ok true := by
  decide

/-! ## Models that were never fitted -/

/-- A failed call leaves the decomposition as it was. -/
theorem NeverFitted_eigen (ops : FloatOps F) (solver : EigenSolver F) (ld : LD F)
    (h : NeverFitted ops solver ld) : ld.eigen = none := by
  induction h with
  | fresh => rfl
  | failed ld x y e _ hfail ih =>
    rcases LinearDiscriminant_failure_cases ops solver ld x y e hfail with
      ⟨_, hs⟩ | ⟨k, _, _, hs⟩ | ⟨k, mu, ct, _, _, hs⟩ <;> rw [hs] <;> exact ih

/-- A failed call stores a class count exactly when it fails after the label checks. -/
theorem LinearDiscriminant_k_on_failure (ops : FloatOps F) (solver : EigenSolver F)
    (ld : LD F) (x : Matrix F) (y : Option (List Int)) (e : Failure)
    (h : (LinearDiscriminant ops solver ld x y).2 = .error e) :
    ((LinearDiscriminant ops solver ld x y).1.k = 0 ↔
      ld.k = 0 ∧ (e = .sizesDontMatch ∨ e = .indexOutOfRange ∨ e = .labelNotFromZero ∨
        e = .missingClass)) := by
  rcases LinearDiscriminant_failure_cases ops solver ld x y e h with
    ⟨he, hs⟩ | ⟨k, hk, he, hs⟩ | ⟨k, mu, ct, hk, he, hs⟩
  · rw [hs]
    exact ⟨fun h0 => ⟨h0, he⟩, fun h0 => h0.1⟩
  · rw [hs]
    constructor
    · intro h0
      exact absurd (show k = 0 from h0) (by omega)
    · rintro ⟨_, h1⟩
      exfalso
      rcases he with he | he <;> subst he <;> simp at h1
  · rw [hs]
    constructor
    · intro h0
      exact absurd (show k = 0 from h0) (by omega)
    · rintro ⟨_, h1⟩
      exfalso
      subst he
      simp at h1

/-- C7 (amended): on a model on which `LinearDiscriminant` was never called, or on which
every call so far failed, `Transform` fails on every input, and `Predict` fails on every
input whose length is not the stored `p` and, once a class count `k ≥ 1` is stored, on
every input; while `k` is 0 it returns class 0 on an input of length `p`. A failed call
leaves `k` at 0 exactly when `k` was 0 and the call failed in the size or label checks. -/
theorem never_fitted_model (ops : FloatOps F) (solver : EigenSolver F) (ld : LD F)
    (h : NeverFitted ops solver ld) :
    (∀ m, Transform ops ld m = .error .matBadFact) ∧
    (∀ v, v.length ≠ ld.p → Predict ops ld v = .error .invalidInputVectorSize) ∧
    (∀ v, v.length = ld.p → 1 ≤ ld.k → ∃ f, Predict ops ld v = .error f) ∧
    (∀ v, v.length = ld.p → ld.k = 0 → Predict ops ld v = .ok 0) ∧
    (∀ x y e, (LinearDiscriminant ops solver ld x y).2 = .error e →
      ((LinearDiscriminant ops solver ld x y).1.k = 0 ↔
        ld.k = 0 ∧ (e = .sizesDontMatch ∨ e = .indexOutOfRange ∨ e = .labelNotFromZero ∨
          e = .missingClass))) := by
  have he := NeverFitted_eigen ops solver ld h
  exact ⟨fun m => Transform_of_no_factorization ops ld m he,
    fun v hv => Predict_wrong_length ops ld v hv,
    fun v hv hk => Predict_of_no_factorization ops ld v hv hk he,
    fun v hv hk => Predict_of_no_class ops ld v hv hk,
    fun x y e hfail => LinearDiscriminant_k_on_failure ops solver ld x y e hfail⟩

unseal Rat.add Rat.sub Rat.mul Rat.inv in
/-- C7 (amended) on a fresh model after a call that fails at the singularity check and a
second call that fails in the label checks: `k = 2` is stored, and both methods fail. -/
theorem never_fitted_model_witness :
    (LinearDiscriminant exactArith (solver1x1 exactArith) LD.zero constX (some trainY)).2 =
      .error .closeToSingular ∧
    (LinearDiscriminant exactArith (solver1x1 exactArith)
      (LinearDiscriminant exactArith (solver1x1 exactArith) LD.zero constX (some trainY)).1
      trainX (some [1, 1, 2])).2 = .error .labelNotFromZero ∧
    (∀ m, Transform exactArith (LinearDiscriminant exactArith (solver1x1 exactArith)
      (LinearDiscriminant exactArith (solver1x1 exactArith) LD.zero constX (some trainY)).1
      trainX (some [1, 1, 2])).1 m = .error .matBadFact) ∧
    (∃ f, Predict exactArith (LinearDiscriminant exactArith (solver1x1 exactArith)
      (LinearDiscriminant exactArith (solver1x1 exactArith) LD.zero constX (some trainY)).1
      trainX (some [1, 1, 2])).1 [.fin 4] = .error f) :=
  ⟨by decide, by decide,
    (never_fitted_model exactArith (solver1x1 exactArith) _
      (NeverFitted.failed _ trainX (some [1, 1, 2]) .labelNotFromZero
        (NeverFitted.failed _ constX (some trainY) .closeToSingular NeverFitted.fresh
          (by decide)) (by decide))).1,
    (never_fitted_model exactArith (solver1x1 exactArith) _
      (NeverFitted.failed _ trainX (some [1, 1, 2]) .labelNotFromZero
        (NeverFitted.failed _ constX (some trainY) .closeToSingular NeverFitted.fresh
          (by decide)) (by decide))).2.2.1 [.fin 4] (by decide) (by decide)⟩

unseal Rat.add Rat.sub Rat.mul Rat.inv in
/-- C7 as stated fails: `Predict` returns class 0 on a model on which nothing was called
(empty input) and on a fresh model whose only call failed in the label checks; and on the
model fitted on `balancedX`, `balancedY`, after a further call that fails in the label
checks, `Transform` returns a matrix and `Predict` a class. -/
theorem Predict_returns_on_unfitted_model :
    Predict exactArith LD.zero [] = .ok 0 ∧
    (LinearDiscriminant exactArith (solver1x1 exactArith) LD.zero trainX (some [1, 1, 2])).2 =
      .error .labelNotFromZero ∧
    Predict exactArith
      (LinearDiscriminant exactArith (solver1x1 exactArith) LD.zero trainX (some [1, 1, 2])).1
      [.fin 4] = .ok 0 ∧
    (LinearDiscriminant exactArith (solver1x1 exactArith) LD.zero balancedX
      (some balancedY)).2 = .ok true ∧
    (LinearDiscriminant exactArith (solver1x1 exactArith) balancedFit balancedX
      (some [1, 1, 2, 2])).2 = .error .labelNotFromZero ∧
    (Transform exactArith (LinearDiscriminant exactArith (solver1x1 exactArith) balancedFit
      balancedX (some [1, 1, 2, 2])).1 balancedX).map Matrix.toLists =
      .ok [[.fin 1], [.fin 3], [.fin 5], [.fin 7]] ∧
    Predict exactArith (LinearDiscriminant exactArith (solver1x1 exactArith) balancedFit
      balancedX (some [1, 1, 2, 2])).1 [.fin 4] = .ok 0 := by
  decide

/-! ## `Predict` on a fitted model -/

/-- The model left by a call of `LinearDiscriminant` that returned `true` and whose
factorization holds `p` eigenvalues: at least two classes, the class means in place, every
constant term `math.Log(float64(0))`, one score for all classes, and `Predict` returning
class 0. -/
theorem fitted_model (ops : FloatOps F) (solver : EigenSolver F) (ld0 : LD F)
    (x0 : Matrix F) (y0 : Option (List Int)) (e : EigenResult F)
    (hok : (LinearDiscriminant ops solver ld0 x0 y0).2 = .ok true)
    (he : (LinearDiscriminant ops solver ld0 x0 y0).1.eigen = some e)
    (hev : e.values.length = x0.cols) :
    2 ≤ (LinearDiscriminant ops solver ld0 x0 y0).1.k ∧
    (LinearDiscriminant ops solver ld0 x0 y0).1.p = x0.cols ∧
    (∃ mu, (LinearDiscriminant ops solver ld0 x0 y0).1.mu = some mu) ∧
    (LinearDiscriminant ops solver ld0 x0 y0).1.ct =
      List.replicate (LinearDiscriminant ops solver ld0 x0 y0).1.k (ops.log (ops.ofInt 0)) ∧
    (∀ i < (LinearDiscriminant ops solver ld0 x0 y0).1.k,
      classScore ops (LinearDiscriminant ops solver ld0 x0 y0).1 e.values i =
        classScore ops (LinearDiscriminant ops solver ld0 x0 y0).1 e.values 0) ∧
    (∀ x : List F, x.length = x0.cols →
      Predict ops (LinearDiscriminant ops solver ld0 x0 y0).1 x = .ok 0) := by
  rcases LinearDiscriminant_cases ops solver ld0 x0 y0 with
    ⟨e1, he1, _⟩ | ⟨ys, rest, hy0, hlen, hl, hc, hk, hn, _⟩
  · rw [he1] at hok
    cases hok
  subst hy0
  have hlab := labels_iff_of_checked ys rest hl hc
  have hct := constantTerms_of_valid ops x0 ys (rest.length + 1) hlen hlab hk
  have hmu := (divideByCounts_dims ops (rest.length + 1) x0.cols
    (classCounts ops x0 ys (rest.length + 1)) (classSums ops x0 ys (rest.length + 1)))
  have hcs := classSums_spec ops x0 ys (rest.length + 1) hlen hlab
  have hrun := LinearDiscriminant_eq_of_valid ops solver ld0 x0 ys (rest.length + 1) hlen hlab
    hk hn
  cases hp : pooledCov ops x0 (rest.length + 1) with
  | none =>
    rw [hrun, hp] at hok
    cases hok
  | some C2 =>
    rw [hp] at hrun
    rw [hrun] at he ⊢
    simp only at he ⊢
    rw [hct]
    have hscore : ∀ i < rest.length + 1,
        classScore ops
          { ld0 with
            n := x0.rows, p := x0.cols, k := rest.length + 1,
            mu := some (divideByCounts ops (rest.length + 1) x0.cols
              (classCounts ops x0 ys (rest.length + 1))
              (classSums ops x0 ys (rest.length + 1))),
            ct := List.replicate (rest.length + 1) (ops.log (ops.ofInt 0)),
            eigen := solver C2 } e.values i =
        ops.sub (ops.log (ops.ofInt 0)) (ops.mul ops.half
          (quadTerm ops x0.cols (List.replicate x0.cols ops.zero) e.values)) := by
      intro i hi
      simp only [classScore, List.getD_eq_getElem?_getD, List.getElem?_replicate, hi, if_true,
        Option.getD_some]
    refine ⟨hk, trivial, ⟨_, rfl⟩, rfl, fun i hi => (hscore i hi).trans (hscore 0 (by omega)).symm,
      ?_⟩
    intro x hx
    rw [Predict_eq_foldl ops _ x e hx he hev
      (Or.inr ⟨_, rfl, by rw [hmu.1, hcs.1], by rw [hmu.2, hcs.2.1]⟩) (by simp)]
    exact congrArg Except.ok
      (scan_equal_scores ops.lt ops.negInf _ _ (rest.length + 1) ops.lt_irrefl hscore
        (rest.length + 1) (le_refl _)).1

/-- C19: on the model left by a call of `LinearDiscriminant` that returned `true` with its
factorization in place (it holds `p` eigenvalues), every stored constant term is
`math.Log(float64(0))`, all classes have the same score, and `Predict` returns class 0 for
every input of length `p`. -/
theorem Predict_after_fit (ops : FloatOps F) (solver : EigenSolver F) (ld0 : LD F)
    (x0 : Matrix F) (y0 : Option (List Int)) (e : EigenResult F)
    (hok : (LinearDiscriminant ops solver ld0 x0 y0).2 = .ok true)
    (he : (LinearDiscriminant ops solver ld0 x0 y0).1.eigen = some e)
    (hev : e.values.length = x0.cols) :
    (LinearDiscriminant ops solver ld0 x0 y0).1.ct =
      List.replicate (LinearDiscriminant ops solver ld0 x0 y0).1.k (ops.log (ops.ofInt 0)) ∧
    (∀ i < (LinearDiscriminant ops solver ld0 x0 y0).1.k,
      classScore ops (LinearDiscriminant ops solver ld0 x0 y0).1 e.values i =
        classScore ops (LinearDiscriminant ops solver ld0 x0 y0).1 e.values 0) ∧
    (∀ x : List F, x.length = x0.cols →
      Predict ops (LinearDiscriminant ops solver ld0 x0 y0).1 x = .ok 0) :=
  (fitted_model ops solver ld0 x0 y0 e hok he hev).2.2.2

set_option maxRecDepth 8000 in
unseal Rat.add Rat.sub Rat.mul Rat.inv in
/-- C19 on the model fitted on `balancedX`, `balancedY` in `float64` arithmetic: the
factorization of the scaled variance `(10)` holds the eigenvalue 10, both constant terms
are `-Inf`, and `Predict` returns class 0 for every input of length 1. -/
theorem Predict_after_fit_witness :
    (LinearDiscriminant float64Arith (solver1x1 float64Arith) LD.zero balancedX
      (some balancedY)).2 = .ok true ∧
    (LinearDiscriminant float64Arith (solver1x1 float64Arith) LD.zero balancedX
      (some balancedY)).1.ct = [.negInf, .negInf] ∧
    (∀ x : List XReal, x.length = balancedX.cols →
      Predict float64Arith (LinearDiscriminant float64Arith (solver1x1 float64Arith) LD.zero
        balancedX (some balancedY)).1 x = .ok 0) :=
  ⟨by decide, by decide,
    (Predict_after_fit float64Arith (solver1x1 float64Arith) LD.zero balancedX (some balancedY)
      ⟨[(.fin 10, .fin 0)], ⟨1, 1, fun _ _ => .fin 1⟩⟩ (by decide) (by rfl)
      (by decide)).2.2⟩

/-! ### The score of the specification on a fitted model -/

/-- Nothing is below `math.Log(0) - w` in exact arithmetic either. -/
theorem exactOps_lt_log_zero (logQ : ℚ → ℚ) (hypotQ : ℚ → ℚ → ℚ) (a w : XReal) :
    (exactOps logQ hypotQ).lt a ((exactOps logQ hypotQ).sub
      ((exactOps logQ hypotQ).log ((exactOps logQ hypotQ).ofInt 0)) w) = false := by
  have h0 : (exactOps logQ hypotQ).log ((exactOps logQ hypotQ).ofInt 0) = .negInf := by
    simp [exactOps, XReal.log]
  rw [h0]
  cases a <;> cases w <;> rfl

end Lda
